import Mathlib

set_option linter.unusedSectionVars false

/-!
Verification of the lincheck linearizability checker.

The development shallowly embeds the Rust sources:
* `src/execution.rs` — the history data model (`Invocation`, `ParallelInvocation`,
  `Execution`; the `History` newtype wrappers around `Vec` are flattened to lists);
* `src/spec.rs` — the `SequentialSpec` trait, embedded as a record of a default
  initial state and a pure `exec : S → Op → S × Ret` (the `&mut self` receiver
  becomes explicit state passing; determinism is automatic for a pure function);
* `src/checker.rs` — `LinearizabilityChecker`, embedded as a fuelled functional
  backtracking search over an explicit `CheckerState`.  The `HashSet` of minimal
  invocations is modelled as a duplicate-free list whose iteration order is
  abstracted by an order oracle (`checkParallelPartO`), so that theorems about
  hash-order independence can be stated;
* `src/recorder.rs` — the recorders, with the shared atomic counters modelled by
  interleaving traces of their fetch-add / load events.
-/

namespace Lincheck

/-- A sequential invocation record (src/execution.rs, struct `Invocation`). -/
structure Invocation (Op Ret : Type) where
  op : Op
  ret : Ret
  deriving Repr, DecidableEq

/-- A timed parallel invocation record (src/execution.rs, struct `ParallelInvocation`). -/
structure ParallelInvocation (Op Ret : Type) where
  thread_id : Nat
  call_timestamp : Nat
  return_timestamp : Nat
  op : Op
  ret : Ret
  deriving Repr, DecidableEq

/-- A recorded execution (src/execution.rs, struct `Execution`). -/
structure Execution (Op Ret : Type) where
  init_part : List (Invocation Op Ret)
  parallel_part : List (ParallelInvocation Op Ret)
  post_part : List (Invocation Op Ret)
  deriving Repr, DecidableEq

/-- A sequential specification (src/spec.rs, trait `SequentialSpec`):
a default initial state and a deterministic `exec` returning the new state and
the operation's return value. -/
structure SeqSpec (S Op Ret : Type) where
  default : S
  exec : S → Op → S × Ret

instance {Op Ret : Type} [Inhabited Op] [Inhabited Ret] : Inhabited (Invocation Op Ret) :=
  ⟨⟨default, default⟩⟩

instance {Op Ret : Type} [Inhabited Op] [Inhabited Ret] : Inhabited (ParallelInvocation Op Ret) :=
  ⟨⟨0, 0, 0, default, default⟩⟩

variable {S Op Ret : Type} [Inhabited Op] [Inhabited Ret] [DecidableEq Ret]

/-- `execution.parallel_part[i]` (`Vec` indexing; the checker only ever indexes
below the length, where the default is irrelevant). -/
def pget (e : Execution Op Ret) (i : Nat) : ParallelInvocation Op Ret :=
  e.parallel_part.getD i default

/-- Call timestamp of parallel invocation `i`. -/
def callTs (e : Execution Op Ret) (i : Nat) : Nat :=
  (pget e i).call_timestamp

/-- Return timestamp of parallel invocation `i`. -/
def retTs (e : Execution Op Ret) (i : Nat) : Nat :=
  (pget e i).return_timestamp

/-- Operation of parallel invocation `i`. -/
def opAt (e : Execution Op Ret) (i : Nat) : Op :=
  (pget e i).op

/-- Recorded return of parallel invocation `i`. -/
def retAt (e : Execution Op Ret) (i : Nat) : Ret :=
  (pget e i).ret

/-- The op/ret pair of parallel invocation `i`, as a sequential invocation. -/
def invAt (e : Execution Op Ret) (i : Nat) : Invocation Op Ret :=
  ⟨opAt e i, retAt e i⟩

/-- Replay a list of recorded invocations against the sequential spec, checking
every return (the short-circuiting `iter().all(..)` replay of
`check_init_part` / `check_post_part` in src/checker.rs); returns the state
after the last operation when every return matches. -/
def replay (sq : SeqSpec S Op Ret) : S → List (Invocation Op Ret) → Option S
  | s, [] => some s
  | s, inv :: rest =>
    let r := sq.exec s inv.op
    if r.2 = inv.ret then replay sq r.1 rest else none

/-- Execute a list of operations, discarding their returns (the replay done by
`rebuild_seq_spec` in src/checker.rs). -/
def seqRunOps (sq : SeqSpec S Op Ret) (s : S) (ops : List Op) : S :=
  ops.foldl (fun s op => (sq.exec s op).1) s

/-- The happens-before adjacency lists built by `check` (src/checker.rs lines
34-42): `hbFun e a` lists the invocations `b` with
`a.return_timestamp < b.call_timestamp`.  The `Vec<Vec<InvocationId>>` is
modelled as a function from indices; indices `≥ parallel_part.len()` are never
read by the checker. -/
def hbFun (e : Execution Op Ret) : Nat → List Nat := fun a =>
  (List.range e.parallel_part.length).filter (fun b => decide (retTs e a < callTs e b))

/-- The in-degree vector built by `check` (src/checker.rs lines 44-49): the
counting loop leaves `in_degree[b]` equal to the number of hb adjacency lists
that contain `b`. -/
def inDegreeFun (e : Execution Op Ret) : Nat → Nat := fun b =>
  ((List.range e.parallel_part.length).filter (fun a => decide (b ∈ hbFun e a))).length

/-- The initial minimal set built by `check` (src/checker.rs lines 51-56).
The `HashSet` is modelled as a duplicate-free list. -/
def minimalList (e : Execution Op Ret) : List Nat :=
  (List.range e.parallel_part.length).filter (fun i => decide (inDegreeFun e i = 0))

/-- The mutable fields of `LinearizabilityChecker` (src/checker.rs lines 16-23).
The borrowed execution and the spec are passed separately to each operation.
`Vec`s indexed by invocation id are modelled as functions, and the
`HashSet<InvocationId>` as a duplicate-free list. -/
structure CheckerState (S : Type) where
  hb : Nat → List Nat
  in_degree : Nat → Nat
  minimal_invocations : List Nat
  linearized : List Nat
  seq_spec : S

/-- The body of the successor loop of `LinearizabilityChecker::call`
(src/checker.rs lines 107-112): decrement the successor's in-degree and insert
it into the minimal set if the in-degree reached zero. -/
def callStep (st : CheckerState S) (next : Nat) : CheckerState S :=
  let d := st.in_degree next - 1
  { st with in_degree := fun j => if j = next then d else st.in_degree j,
            minimal_invocations :=
              if d = 0 then next :: st.minimal_invocations
              else st.minimal_invocations }

/-- `LinearizabilityChecker::call` (src/checker.rs lines 104-113): push the
invocation, remove it from the minimal set, then run the successor loop. -/
def call (inv_id : Nat) (st : CheckerState S) : CheckerState S :=
  let st0 : CheckerState S :=
    { st with linearized := st.linearized ++ [inv_id],
              minimal_invocations :=
                st.minimal_invocations.filter (fun x => decide (x ≠ inv_id)) }
  (st.hb inv_id).foldl callStep st0

/-- The body of the successor loop of `LinearizabilityChecker::undo`
(src/checker.rs lines 128-133): remove the successor from the minimal set if
its in-degree is zero, then re-increment its in-degree. -/
def undoStep (st : CheckerState S) (next : Nat) : CheckerState S :=
  let st' := if st.in_degree next = 0
    then { st with minimal_invocations :=
             st.minimal_invocations.filter (fun x => decide (x ≠ next)) }
    else st
  { st' with in_degree := fun j => if j = next then st'.in_degree next + 1 else st'.in_degree j }

/-- `LinearizabilityChecker::undo` (src/checker.rs lines 127-136): run the
successor loop, re-insert the invocation and pop it from the linearization. -/
def undo (inv_id : Nat) (st : CheckerState S) : CheckerState S :=
  let st1 := (st.hb inv_id).foldl undoStep st
  { st1 with minimal_invocations := inv_id :: st1.minimal_invocations,
             linearized := st1.linearized.dropLast }

/-- `LinearizabilityChecker::rebuild_seq_spec` (src/checker.rs lines 115-125):
a fresh spec, replay all init ops, then the currently linearized ops. -/
def rebuildSeqSpec (sq : SeqSpec S Op Ret) (e : Execution Op Ret) (st : CheckerState S) :
    CheckerState S :=
  { st with
      seq_spec :=
        seqRunOps sq (seqRunOps sq sq.default (e.init_part.map Invocation.op))
          (st.linearized.map (opAt e)) }

/-- `LinearizabilityChecker::check_post_part` (src/checker.rs lines 97-102). -/
def checkPostPart (sq : SeqSpec S Op Ret) (e : Execution Op Ret) (st : CheckerState S) : Bool :=
  (replay sq st.seq_spec e.post_part).isSome

/-- The body of the `minimal_invocations.clone().into_iter().any(..)` loop of
`check_parallel_part` (src/checker.rs lines 82-94): try each candidate of the
snapshot in turn; on failure undo and rebuild, then continue with the rest. -/
def tryCandidates (sq : SeqSpec S Op Ret) (e : Execution Op Ret)
    (recur : CheckerState S → Bool) : List Nat → CheckerState S → Bool
  | [], _ => false
  | inv_id :: rest, st =>
    let st1 := call inv_id st
    let r := sq.exec st1.seq_spec (opAt e inv_id)
    let st2 : CheckerState S := { st1 with seq_spec := r.1 }
    if r.2 = retAt e inv_id ∧ recur st2 = true then true
    else tryCandidates sq e recur rest (rebuildSeqSpec sq e (undo inv_id st2))

/-- `LinearizabilityChecker::check_parallel_part` (src/checker.rs lines 77-95),
parameterized by the order oracle `ord` modelling the unspecified `HashSet`
iteration order of `minimal_invocations.clone()` (theorems assume
`ord l` is a permutation of `l`).  The recursion of the source terminates
because the linearization grows at each level; the embedding makes this
explicit with fuel (the top-level entry supplies `parallel_part.length + 1`,
which is shown sufficient). -/
def checkParallelPartO (ord : List Nat → List Nat) (sq : SeqSpec S Op Ret)
    (e : Execution Op Ret) : Nat → CheckerState S → Bool
  | 0, _ => false
  | fuel + 1, st =>
    if st.minimal_invocations.isEmpty then checkPostPart sq e st
    else tryCandidates sq e (checkParallelPartO ord sq e fuel)
      (ord st.minimal_invocations) st

/-- `LinearizabilityChecker::check_init_part` (src/checker.rs lines 70-75):
replay the init part checking returns, and continue into the parallel search
from the resulting sequential state. -/
def checkInitPartO (ord : List Nat → List Nat) (sq : SeqSpec S Op Ret)
    (e : Execution Op Ret) (fuel : Nat) (st : CheckerState S) : Bool :=
  match replay sq st.seq_spec e.init_part with
  | none => false
  | some s => checkParallelPartO ord sq e fuel { st with seq_spec := s }

/-- The checker state constructed by `check` (src/checker.rs lines 58-65). -/
def initState (sq : SeqSpec S Op Ret) (e : Execution Op Ret) : CheckerState S :=
  { hb := hbFun e
    in_degree := inDegreeFun e
    minimal_invocations := minimalList e
    linearized := []
    seq_spec := sq.default }

/-- `LinearizabilityChecker::check` with an explicit order oracle for the
`HashSet` iteration order. -/
def checkO (ord : List Nat → List Nat) (sq : SeqSpec S Op Ret) (e : Execution Op Ret) : Bool :=
  checkInitPartO ord sq e (e.parallel_part.length + 1) (initState sq e)

/-- `LinearizabilityChecker::check` (src/checker.rs lines 32-68), with the
identity as the canonical candidate order. -/
def check (sq : SeqSpec S Op Ret) (e : Execution Op Ret) : Bool :=
  checkO (fun l => l) sq e

end Lincheck

namespace Lincheck

/-! Concrete sequential stack used by the tests in src/checker.rs, used here
for sanity examples and theorem witnesses. -/

/-- Stack operations (src/checker.rs test module, enum `Op`). -/
inductive StackOp where
  | push (v : Nat)
  | pop
  deriving Repr, DecidableEq

/-- Stack returns (src/checker.rs test module, enum `Ret`). -/
inductive StackRet where
  | pushR
  | popR (v : Option Nat)
  deriving Repr, DecidableEq

instance : Inhabited StackOp := ⟨StackOp.pop⟩

instance : Inhabited StackRet := ⟨StackRet.pushR⟩

/-- The sequential stack spec (src/checker.rs test module, `SequentialStack`). -/
def stackSpec : SeqSpec (List Nat) StackOp StackRet where
  default := []
  exec s op :=
    match op with
    | StackOp.push v => (v :: s, StackRet.pushR)
    | StackOp.pop =>
      match s with
      | [] => ([], StackRet.popR none)
      | v :: rest => (rest, StackRet.popR (some v))

/-- The sequential-only execution of the test `init_and_post_parts_are_sequentional`. -/
def execSeqOnly : Execution StackOp StackRet :=
  { init_part := [⟨StackOp.push 1, StackRet.pushR⟩, ⟨StackOp.push 2, StackRet.pushR⟩]
    parallel_part := []
    post_part := [⟨StackOp.pop, StackRet.popR (some 2)⟩, ⟨StackOp.pop, StackRet.popR (some 1)⟩] }

/-- The overlapping-pops execution of the test `parallel_part_overlapping`. -/
def execOverlap : Execution StackOp StackRet :=
  { init_part := [⟨StackOp.push 1, StackRet.pushR⟩, ⟨StackOp.push 2, StackRet.pushR⟩]
    parallel_part :=
      [⟨0, 4, 6, StackOp.pop, StackRet.popR (some 2)⟩,
       ⟨1, 5, 7, StackOp.pop, StackRet.popR (some 1)⟩]
    post_part := [] }

/-- The hb-violating execution of the test `parallel_part_does_not_violate_happens_before`. -/
def execHbViolation : Execution StackOp StackRet :=
  { init_part := []
    parallel_part :=
      [⟨0, 4, 6, StackOp.pop, StackRet.popR (some 1)⟩,
       ⟨0, 7, 9, StackOp.push 1, StackRet.pushR⟩,
       ⟨1, 5, 8, StackOp.pop, StackRet.popR none⟩]
    post_part := [] }

/-- Sequential execution with a failing init part: popping an empty stack is
recorded as returning `some 5`. -/
def execBadInit : Execution StackOp StackRet :=
  { init_part := [⟨StackOp.pop, StackRet.popR (some 5)⟩]
    parallel_part := []
    post_part := [] }

end Lincheck

namespace Lincheck

/-! Semantic layer: well-formedness, happens-before, linearizations, and the
search-state invariant of the checker. -/

variable {S Op Ret : Type} [Inhabited Op] [Inhabited Ret] [DecidableEq Ret]

/-- Well-formedness of a recorded execution, as guaranteed by the recorder:
every parallel invocation calls before it returns, and all timestamps across
the parallel part are pairwise distinct. -/
def WellFormed (e : Execution Op Ret) : Prop :=
  (∀ inv ∈ e.parallel_part, inv.call_timestamp < inv.return_timestamp) ∧
  (e.parallel_part.map ParallelInvocation.call_timestamp ++
    e.parallel_part.map ParallelInvocation.return_timestamp).Nodup

/-- The happens-before relation over parallel invocation ids:
`a` happens-before `b` iff `a.return_timestamp < b.call_timestamp`. -/
def HB (e : Execution Op Ret) (a b : Nat) : Prop :=
  a < e.parallel_part.length ∧ b < e.parallel_part.length ∧ retTs e a < callTs e b

instance (e : Execution Op Ret) (a b : Nat) : Decidable (HB e a b) :=
  inferInstanceAs (Decidable (_ ∧ _ ∧ _))

instance (e : Execution Op Ret) : Decidable (WellFormed e) :=
  inferInstanceAs (Decidable (_ ∧ _))

/-- An edge of the happens-before graph as constructed by `check`:
`b` occurs in the adjacency list of `a`. -/
def HBedge (e : Execution Op Ret) (a b : Nat) : Prop :=
  a < e.parallel_part.length ∧ b ∈ hbFun e a

/-- A list of invocation ids has no happens-before back edge: whenever `a`
occurs before `b` in the list, `b` does not happen-before `a`. -/
def RespectsHB (e : Execution Op Ret) (l : List Nat) : Prop :=
  l.Pairwise (fun a b => ¬ HB e b a)

/-- A total order (as a list) extends happens-before: `a` is placed before `b`
whenever `a` happens-before `b`. -/
def ExtendsHB (e : Execution Op Ret) (σ : List Nat) : Prop :=
  ∀ a b, HB e a b → σ.indexOf a < σ.indexOf b

/-- `σ` is a linearization of the execution: a total order of the parallel
invocation ids extending happens-before, such that replaying on a fresh
sequential spec all init ops, then the parallel ops in `σ`'s order, then all
post ops, reproduces every recorded return. -/
def IsLinearization (sq : SeqSpec S Op Ret) (e : Execution Op Ret) (σ : List Nat) : Prop :=
  σ.Perm (List.range e.parallel_part.length) ∧
  ExtendsHB e σ ∧
  (replay sq sq.default (e.init_part ++ σ.map (invAt e) ++ e.post_part)).isSome = true

/-- Number of happens-before predecessors of `j` that are not in `lin`. -/
def remainingPreds (e : Execution Op Ret) (lin : List Nat) (j : Nat) : Nat :=
  ((List.range e.parallel_part.length).filter
    (fun a => decide (HB e a j) && decide (a ∉ lin))).length

/-- The sequential state obtained by executing all init ops and then the ops of
`lin` in order on a fresh spec (what `rebuild_seq_spec` computes). -/
def builtSeq (sq : SeqSpec S Op Ret) (e : Execution Op Ret) (lin : List Nat) : S :=
  seqRunOps sq (seqRunOps sq sq.default (e.init_part.map Invocation.op))
    (lin.map (opAt e))

/-- The search-state invariant of claim C3, holding at every entry to
`check_parallel_part`: `hb` is the precomputed adjacency, `linearized` is a
duplicate-free happens-before-respecting downward-closed prefix, `in_degree i`
counts the happens-before predecessors of `i` not yet linearized,
`minimal_invocations` is exactly the set of not-yet-linearized invocations of
in-degree zero, and `seq_spec` is the state of a fresh sequential spec after
the init ops followed by the linearized ops. -/
structure Inv (sq : SeqSpec S Op Ret) (e : Execution Op Ret) (st : CheckerState S) : Prop where
  hb_eq : st.hb = hbFun e
  lin_mem : ∀ i ∈ st.linearized, i < e.parallel_part.length
  lin_nodup : st.linearized.Nodup
  lin_resp : RespectsHB e st.linearized
  lin_closed : ∀ j ∈ st.linearized, ∀ a, HB e a j → a ∈ st.linearized
  deg_eq : ∀ j < e.parallel_part.length, st.in_degree j = remainingPreds e st.linearized j
  min_nodup : st.minimal_invocations.Nodup
  min_iff : ∀ i, i ∈ st.minimal_invocations ↔
    i < e.parallel_part.length ∧ i ∉ st.linearized ∧ st.in_degree i = 0
  seq_eq : st.seq_spec = builtSeq sq e st.linearized

/-- The state entering the recursive `check_parallel_part` after tentatively
placing `inv_id`: `call`, then one `exec` on the sequential spec. -/
def stepState (sq : SeqSpec S Op Ret) (e : Execution Op Ret) (inv_id : Nat)
    (st : CheckerState S) : CheckerState S :=
  let st1 := call inv_id st
  { st1 with seq_spec := (sq.exec st1.seq_spec (opAt e inv_id)).1 }

/-- Equality of checker states up to the (unobservable) iteration order of the
minimal hash set. -/
def StEq (st₁ st₂ : CheckerState S) : Prop :=
  st₁.hb = st₂.hb ∧ st₁.in_degree = st₂.in_degree ∧ st₁.linearized = st₂.linearized ∧
  st₁.seq_spec = st₂.seq_spec ∧ st₁.minimal_invocations.Perm st₂.minimal_invocations

/-- `τ` completes the current search state into a full checked linearization:
together with the already linearized prefix it enumerates all parallel
invocations respecting happens-before, and replaying it from the current
sequential state and then replaying the post part reproduces all returns. -/
def Completes (sq : SeqSpec S Op Ret) (e : Execution Op Ret) (st : CheckerState S)
    (τ : List Nat) : Prop :=
  (st.linearized ++ τ).Perm (List.range e.parallel_part.length) ∧
  RespectsHB e (st.linearized ++ τ) ∧
  ∃ s, replay sq st.seq_spec (τ.map (invAt e)) = some s ∧
    (replay sq s e.post_part).isSome = true

end Lincheck

namespace Lincheck

/-! Models of the recorders (src/recorder.rs).  The shared atomic counters are
given interleaving-trace semantics: a trace fixes the global order of the
atomic operations on one counter (for a single atomic cell, atomic RMW
operations are totally ordered even under relaxed ordering, which is what the
loom model checker guarantees), and each thread's own events appear in its
program order. -/

variable {S Op Ret : Type} [Inhabited Op] [Inhabited Ret] [DecidableEq Ret]

/-- Timer model for `PerThreadRecorder::record` (src/recorder.rs lines
280-288): `tr` lists, in global order, the thread performing each successive
`timer.fetch_add(1)`; the `k`-th fetch_add returns `k` (the counter starts at
0 and each fetch_add increments it by one).  `threadPositions tr t` is the
list of timestamps thread `t` receives, in program order. -/
def threadPositions (tr : List Nat) (t : Nat) : List Nat :=
  (List.range tr.length).filter (fun k => decide (tr.get? k = some t))

/-- The parallel history recorded by `PerThreadRecorder` for thread `t`
executing `ops` (op, thunk-result pairs) under trace `tr`: the `m`-th `record`
performs thread `t`'s fetch_adds number `2*m` (call) and `2*m+1` (return). -/
def recordedInvocations (tr : List Nat) (t : Nat) (ops : List (Op × Ret)) :
    List (ParallelInvocation Op Ret) :=
  (List.range ops.length).map (fun m =>
    { thread_id := t
      call_timestamp := (threadPositions tr t).getD (2 * m) 0
      return_timestamp := (threadPositions tr t).getD (2 * m + 1) 0
      op := (ops.getD m default).1
      ret := (ops.getD m default).2 })

/-- All timestamps recorded by thread `t` for `numOps` operations, in record
order: call then return of the first op, then of the second, and so on. -/
def recordedTimestamps (tr : List Nat) (t : Nat) (numOps : Nat) : List Nat :=
  (List.range numOps).flatMap (fun m =>
    [(threadPositions tr t).getD (2 * m) 0, (threadPositions tr t).getD (2 * m + 1) 0])

/-- One atomic step of `ParallelPartRecorder::record_thread` (src/recorder.rs
lines 217-224) on the shared `next_thread_id` counter: the separate
`load(Relaxed)` that reads the id, and the subsequent `fetch_add(1, Relaxed)`. -/
inductive AllocEvent where
  | readCounter (caller : Nat)
  | bumpCounter (caller : Nat)
  deriving Repr, DecidableEq

/-- Run an interleaved trace of `record_thread` counter events, yielding the
(caller, allocated thread_id) pairs in read order.  Each `record_thread` call
by caller `c` contributes a `readCounter c` followed (possibly after events of
other callers) by a `bumpCounter c`. -/
def allocThreadIds : Nat → List AllocEvent → List (Nat × Nat)
  | _, [] => []
  | ctr, AllocEvent.readCounter c :: rest => (c, ctr) :: allocThreadIds ctr rest
  | ctr, AllocEvent.bumpCounter _ :: rest => allocThreadIds (ctr + 1) rest

/-- src/recorder.rs, struct `InternalRecorder`. -/
structure InternalRecorder (Op Ret : Type) where
  thread_id : Nat
  invocations : List (ParallelInvocation Op Ret)
  current_op : Option Op
  call_timestamp : Nat

/-- `InternalRecorder::add_call` (src/recorder.rs lines 45-49): stages the op;
nothing is appended to the history yet.  (The source also asserts
`current_op.is_none()`; every state reaching `add_call` satisfies it.) -/
def addCall (r : InternalRecorder Op Ret) (op : Op) (timestamp : Nat) :
    InternalRecorder Op Ret :=
  { r with current_op := some op, call_timestamp := timestamp }

/-- `InternalRecorder::add_return` (src/recorder.rs lines 51-59): commits the
staged op as a complete invocation record.  (The source unwraps `current_op`;
`add_return` is only reached with a staged op, making the `none` branch dead.) -/
def addReturn (r : InternalRecorder Op Ret) (ret : Ret) (timestamp : Nat) :
    InternalRecorder Op Ret :=
  match r.current_op with
  | some op =>
    let inv : ParallelInvocation Op Ret := ⟨r.thread_id, r.call_timestamp, timestamp, op, ret⟩
    { r with invocations := r.invocations ++ [inv], current_op := none }
  | none => r

/-- `PerThreadRecorder::record` (src/recorder.rs lines 280-288), with the user
thunk modelled as an `Option Ret` (`none` = the thunk panicked) and the two
timer fetch_add results passed in.  A panic propagates (`Except.error`) after
`add_call` but before `add_return`, carrying the recorder state at unwind. -/
def perThreadRecord (r : InternalRecorder Op Ret) (op : Op) (callTimestamp : Nat)
    (thunk : Option Ret) (returnTimestamp : Nat) :
    Except (InternalRecorder Op Ret) (InternalRecorder Op Ret) :=
  let r1 := addCall r op callTimestamp
  match thunk with
  | none => Except.error r1
  | some ret => Except.ok (addReturn r1 ret returnTimestamp)

/-- `InitPartRecorder::record` / `PostPartRecorder::record` (src/recorder.rs
lines 138-141 and 314-317): run the thunk, then push `{op, ret}`; a panicking
thunk propagates with the history untouched. -/
def seqRecord (history : List (Invocation Op Ret)) (op : Op) (thunk : Option Ret) :
    Except (List (Invocation Op Ret)) (List (Invocation Op Ret)) :=
  match thunk with
  | none => Except.error history
  | some ret => Except.ok (history ++ [⟨op, ret⟩])

/-- `PerThreadRecorder::drop` (src/recorder.rs lines 291-301): merge the
thread's local buffer into the parent's shared parallel history. -/
def mergeOnDrop (parallel_buffer : List (ParallelInvocation Op Ret))
    (r : InternalRecorder Op Ret) : List (ParallelInvocation Op Ret) :=
  parallel_buffer ++ r.invocations

/-- The history-holding fields of src/recorder.rs `ParallelPartRecorder` (the
two Mutex-protected histories; the atomic counters are modelled separately). -/
structure ParallelPartRecorderM (Op Ret : Type) where
  init_part : List (Invocation Op Ret)
  parallel_part : List (ParallelInvocation Op Ret)

/-- src/recorder.rs, struct `PostPartRecorder`. -/
structure PostPartRecorderM (Op Ret : Type) where
  init_part : List (Invocation Op Ret)
  parallel_part : List (ParallelInvocation Op Ret)
  post_part : List (Invocation Op Ret)

/-- `ParallelPartRecorder::record_post_part` (src/recorder.rs lines 240-246):
takes `&self` and `mem::take`s both stored histories into the returned
`PostPartRecorder`; the second component is the recorder as left behind. -/
def recordPostPart (r : ParallelPartRecorderM Op Ret) :
    PostPartRecorderM Op Ret × ParallelPartRecorderM Op Ret :=
  (⟨r.init_part, r.parallel_part, []⟩, ⟨[], []⟩)

/-- `ParallelPartRecorder::finish` (src/recorder.rs lines 261-267). -/
def parallelFinish (r : ParallelPartRecorderM Op Ret) : Execution Op Ret :=
  ⟨r.init_part, r.parallel_part, []⟩

/-- `PostPartRecorder::finish` (src/recorder.rs lines 322-328). -/
def postFinish (r : PostPartRecorderM Op Ret) : Execution Op Ret :=
  ⟨r.init_part, r.parallel_part, r.post_part⟩

end Lincheck

namespace Lincheck

/-! Basic lemmas about replay and the happens-before graph. -/

variable {S Op Ret : Type} [Inhabited Op] [Inhabited Ret] [DecidableEq Ret]

theorem replay_append (sq : SeqSpec S Op Ret) (s : S) (xs ys : List (Invocation Op Ret)) :
    replay sq s (xs ++ ys) = (replay sq s xs).bind (fun s' => replay sq s' ys) := by
  induction xs generalizing s with
  | nil => rfl
  | cons x xs ih =>
    simp only [List.cons_append, replay]
    by_cases hx : (sq.exec s x.op).2 = x.ret
    · simp only [if_pos hx]
      exact ih _
    · simp only [if_neg hx]
      rfl

theorem replay_some_run (sq : SeqSpec S Op Ret) (s s' : S) (xs : List (Invocation Op Ret))
    (h : replay sq s xs = some s') : seqRunOps sq s (xs.map Invocation.op) = s' := by
  induction xs generalizing s with
  | nil => simpa [replay, seqRunOps] using h
  | cons x xs ih =>
    simp only [replay] at h
    by_cases hx : (sq.exec s x.op).2 = x.ret
    · rw [if_pos hx] at h
      simpa [seqRunOps] using ih _ h
    · rw [if_neg hx] at h
      exact absurd h (by simp)

theorem seqRunOps_append (sq : SeqSpec S Op Ret) (s : S) (xs ys : List Op) :
    seqRunOps sq s (xs ++ ys) = seqRunOps sq (seqRunOps sq s xs) ys := by
  simp [seqRunOps, List.foldl_append]

theorem mem_hbFun (e : Execution Op Ret) (a b : Nat) :
    b ∈ hbFun e a ↔ b < e.parallel_part.length ∧ retTs e a < callTs e b := by
  simp [hbFun, List.mem_filter, List.mem_range]

/-- An edge of the constructed graph is exactly a happens-before pair, for
source indices below the bound. -/
theorem hbedge_iff (e : Execution Op Ret) (a b : Nat) : HBedge e a b ↔ HB e a b := by
  unfold HBedge HB
  rw [mem_hbFun]

theorem pget_mem (e : Execution Op Ret) (i : Nat) (h : i < e.parallel_part.length) :
    pget e i ∈ e.parallel_part := by
  unfold pget
  rw [List.getD_eq_getElem _ _ h]
  exact List.getElem_mem h

/-- Well-formedness gives call-before-return at every valid index. -/
theorem wf_call_lt_ret (e : Execution Op Ret) (hwf : WellFormed e) (i : Nat)
    (h : i < e.parallel_part.length) : callTs e i < retTs e i :=
  hwf.1 _ (pget_mem e i h)

theorem hb_irrefl (e : Execution Op Ret) (hwf : WellFormed e) (a : Nat) : ¬ HB e a a := by
  rintro ⟨ha, -, hlt⟩
  exact absurd hlt (by simpa using (wf_call_lt_ret e hwf a ha).le.not_lt)

theorem hb_trans (e : Execution Op Ret) (hwf : WellFormed e) {a b c : Nat}
    (hab : HB e a b) (hbc : HB e b c) : HB e a c := by
  obtain ⟨ha, hb, h1⟩ := hab
  obtain ⟨-, hc, h2⟩ := hbc
  exact ⟨ha, hc, h1.trans ((wf_call_lt_ret e hwf b hb).trans h2)⟩

end Lincheck

namespace Lincheck

/-! Theorems for the individual claims, with their witnesses. -/

variable {S Op Ret : Type} [Inhabited Op] [Inhabited Ret] [DecidableEq Ret]

/-- C2: for a well-formed execution, the happens-before graph built by `check`
contains an edge `(a, b)` only if `a.return_timestamp < b.call_timestamp`, and
the edge relation is irreflexive, transitive and acyclic; overlapping
invocations (neither returning before the other is called) are incomparable. -/
theorem hb_graph_sound (e : Execution Op Ret) (hwf : WellFormed e) :
    (∀ a b, HBedge e a b → retTs e a < callTs e b) ∧
    (∀ a, ¬ HBedge e a a) ∧
    (∀ a b c, HBedge e a b → HBedge e b c → HBedge e a c) ∧
    (∀ a, ¬ Relation.TransGen (HBedge e) a a) ∧
    (∀ a b, a < e.parallel_part.length → b < e.parallel_part.length →
      ¬ retTs e a < callTs e b → ¬ retTs e b < callTs e a →
      ¬ HBedge e a b ∧ ¬ HBedge e b a) := by
  have htrans : ∀ a b c, HBedge e a b → HBedge e b c → HBedge e a c := by
    intro a b c h1 h2
    exact (hbedge_iff e a c).2 (hb_trans e hwf ((hbedge_iff e a b).1 h1) ((hbedge_iff e b c).1 h2))
  have hirr : ∀ a, ¬ HBedge e a a := by
    intro a h
    exact hb_irrefl e hwf a ((hbedge_iff e a a).1 h)
  refine ⟨fun a b h => ((hbedge_iff e a b).1 h).2.2, hirr, htrans, ?_, ?_⟩
  · intro a h
    have : Transitive (HBedge e) := fun _ _ _ h1 h2 => htrans _ _ _ h1 h2
    rw [Relation.transGen_eq_self this] at h
    exact hirr a h
  · intro a b _ _ hab hba
    exact ⟨fun h => hab ((hbedge_iff e a b).1 h).2.2, fun h => hba ((hbedge_iff e b a).1 h).2.2⟩

/-- Witness for C2 at the overlapping-pops execution. -/
theorem hb_graph_sound_witness :
    WellFormed execOverlap ∧ ∀ a, ¬ HBedge execOverlap a a :=
  ⟨by decide, (hb_graph_sound execOverlap (by decide)).2.1⟩

/-- C5: if replaying the init part on a fresh sequential spec mismatches at
some position, `check` answers false; the parallel search never runs: for any
order oracle, any fuel and any checker state carrying the fresh spec,
`check_init_part` already answers false. -/
theorem init_mismatch_no_search (sq : SeqSpec S Op Ret) (e : Execution Op Ret)
    (h : replay sq sq.default e.init_part = none) :
    check sq e = false ∧
    ∀ (ord : List Nat → List Nat) (fuel : Nat) (st : CheckerState S),
      st.seq_spec = sq.default → checkInitPartO ord sq e fuel st = false := by
  have hgen : ∀ (ord : List Nat → List Nat) (fuel : Nat) (st : CheckerState S),
      st.seq_spec = sq.default → checkInitPartO ord sq e fuel st = false := by
    intro ord fuel st hst
    unfold checkInitPartO
    rw [hst, h]
  exact ⟨hgen (fun l => l) _ _ rfl, hgen⟩

/-- Witness for C5: the execution whose init part pops `some 5` off an empty
stack. -/
theorem init_mismatch_no_search_witness :
    check stackSpec execBadInit = false ∧
    checkInitPartO (fun l => l) stackSpec execBadInit 3 (initState stackSpec execBadInit) = false := by
  have h := init_mismatch_no_search stackSpec execBadInit (by decide)
  exact ⟨h.1, h.2 (fun l => l) 3 _ rfl⟩

/-- C6: with an empty parallel part, `check` is exactly the sequential replay
of the init part and then the post part on a fresh sequential spec: the
parallel phase degenerates immediately to the post replay. -/
theorem empty_parallel_check (sq : SeqSpec S Op Ret) (e : Execution Op Ret)
    (h : e.parallel_part = []) :
    (check sq e = true ↔
      (replay sq sq.default (e.init_part ++ e.post_part)).isSome = true) := by
  have hn : e.parallel_part.length = 0 := by rw [h]; rfl
  have hmin : minimalList e = [] := by
    unfold minimalList
    rw [hn]
    rfl
  unfold check checkO checkInitPartO initState
  rw [replay_append]
  cases hr : replay sq sq.default e.init_part with
  | none => simp
  | some s =>
    simp only [Option.some_bind]
    rw [hn]
    unfold checkParallelPartO
    rw [hmin]
    simp [checkPostPart]

/-- Witness for C6 at the sequential-only stack execution. -/
theorem empty_parallel_check_witness :
    check stackSpec execSeqOnly = true ↔
      (replay stackSpec stackSpec.default
        (execSeqOnly.init_part ++ execSeqOnly.post_part)).isSome = true :=
  empty_parallel_check stackSpec execSeqOnly rfl

/-- C8 (refuted by the code): `record_thread` obtains the thread id with a
separate `load` followed by a `fetch_add` on `next_thread_id`, so two
concurrent calls interleaved as read₀, read₁, bump₀, bump₁ — an interleaving
the loom-driven scenario executor can produce, since it calls `record_thread`
inside each spawned worker — both obtain thread id 0, while sequential
(non-interleaved) calls do get fresh increasing ids. -/
theorem record_thread_id_race :
    allocThreadIds 0 [AllocEvent.readCounter 0, AllocEvent.readCounter 1,
      AllocEvent.bumpCounter 0, AllocEvent.bumpCounter 1] = [(0, 0), (1, 0)] ∧
    ¬ ((allocThreadIds 0 [AllocEvent.readCounter 0, AllocEvent.readCounter 1,
      AllocEvent.bumpCounter 0, AllocEvent.bumpCounter 1]).map Prod.snd).Nodup ∧
    allocThreadIds 0 [AllocEvent.readCounter 0, AllocEvent.bumpCounter 0,
      AllocEvent.readCounter 1, AllocEvent.bumpCounter 1] = [(0, 0), (1, 1)] := by
  refine ⟨rfl, by decide, rfl⟩

/-- C9: a panicking thunk (modelled as `none`) propagates out of `record`
without any invocation being appended: the init/post history is returned
unchanged, the per-thread buffer is unchanged (`add_call` only stages the op;
only `add_return` commits it), and the drop-merge of the unwound per-thread
recorder contributes nothing for the panicked op — while a returning thunk
appends exactly its one record. -/
theorem panic_appends_no_record (h : List (Invocation Op Ret))
    (buf : List (ParallelInvocation Op Ret)) (r : InternalRecorder Op Ret)
    (op : Op) (c t : Nat) :
    seqRecord h op none = Except.error h ∧
    perThreadRecord r op c none t = Except.error (addCall r op c) ∧
    (addCall r op c).invocations = r.invocations ∧
    mergeOnDrop buf (addCall r op c) = buf ++ r.invocations ∧
    (∀ ret : Ret, seqRecord h op (some ret) = Except.ok (h ++ [⟨op, ret⟩])) ∧
    (∀ ret : Ret, perThreadRecord r op c (some ret) t =
      Except.ok (addReturn (addCall r op c) ret t)) ∧
    (∀ ret : Ret, (addReturn (addCall r op c) ret t).invocations =
      r.invocations ++ [⟨r.thread_id, c, t, op, ret⟩]) :=
  ⟨rfl, rfl, rfl, rfl, fun _ => rfl, fun _ => rfl, fun _ => rfl⟩

/-- C10: `record_post_part` moves the stored init and parallel histories into
the returned `PostPartRecorder` and leaves the `ParallelPartRecorder` (taken
by shared reference) with empty histories, so a subsequent `finish`, or the
post recorder of a second `record_post_part`, yields an execution whose
init_part and parallel_part are empty. -/
theorem record_post_part_empties (r : ParallelPartRecorderM Op Ret) :
    (recordPostPart r).1.init_part = r.init_part ∧
    (recordPostPart r).1.parallel_part = r.parallel_part ∧
    parallelFinish (recordPostPart r).2 =
      { init_part := [], parallel_part := [], post_part := [] } ∧
    postFinish (recordPostPart (recordPostPart r).2).1 =
      { init_part := [], parallel_part := [], post_part := [] } :=
  ⟨rfl, rfl, rfl, rfl⟩

end Lincheck

namespace Lincheck

/-! Closed forms for the successor loops of `call` and `undo`.  The adjacency
lists the loops run over are duplicate-free, so each in-degree entry is
touched at most once per loop. -/

variable {S Op Ret : Type} [Inhabited Op] [Inhabited Ret] [DecidableEq Ret]

theorem callStep_hb (s : CheckerState S) (y : Nat) : (callStep s y).hb = s.hb := rfl

theorem callStep_linearized (s : CheckerState S) (y : Nat) :
    (callStep s y).linearized = s.linearized := rfl

theorem callStep_seq (s : CheckerState S) (y : Nat) : (callStep s y).seq_spec = s.seq_spec := rfl

theorem callStep_in_degree (s : CheckerState S) (y j : Nat) :
    (callStep s y).in_degree j = if j = y then s.in_degree y - 1 else s.in_degree j := rfl

theorem callStep_minimal (s : CheckerState S) (y x : Nat) :
    x ∈ (callStep s y).minimal_invocations ↔
      x ∈ s.minimal_invocations ∨ (x = y ∧ s.in_degree y - 1 = 0) := by
  unfold callStep
  by_cases hd : s.in_degree y - 1 = 0 <;> simp [hd, or_comm]

theorem undoStep_hb (s : CheckerState S) (y : Nat) : (undoStep s y).hb = s.hb := by
  unfold undoStep
  by_cases hd : s.in_degree y = 0 <;> simp [hd]

theorem undoStep_linearized (s : CheckerState S) (y : Nat) :
    (undoStep s y).linearized = s.linearized := by
  unfold undoStep
  by_cases hd : s.in_degree y = 0 <;> simp [hd]

theorem undoStep_seq (s : CheckerState S) (y : Nat) : (undoStep s y).seq_spec = s.seq_spec := by
  unfold undoStep
  by_cases hd : s.in_degree y = 0 <;> simp [hd]

theorem undoStep_in_degree (s : CheckerState S) (y j : Nat) :
    (undoStep s y).in_degree j = if j = y then s.in_degree y + 1 else s.in_degree j := by
  unfold undoStep
  by_cases hd : s.in_degree y = 0 <;> simp [hd]

theorem undoStep_minimal (s : CheckerState S) (y x : Nat) :
    x ∈ (undoStep s y).minimal_invocations ↔
      x ∈ s.minimal_invocations ∧ ¬(x = y ∧ s.in_degree y = 0) := by
  unfold undoStep
  by_cases hd : s.in_degree y = 0 <;> simp [hd, List.mem_filter]

theorem undoStep_minimal_nodup (s : CheckerState S) (y : Nat)
    (hs : s.minimal_invocations.Nodup) : (undoStep s y).minimal_invocations.Nodup := by
  unfold undoStep
  by_cases hd : s.in_degree y = 0
  · simpa [hd] using hs.filter _
  · simpa [hd] using hs

theorem foldl_callStep_hb (l : List Nat) (s : CheckerState S) :
    (l.foldl callStep s).hb = s.hb := by
  induction l generalizing s with
  | nil => rfl
  | cons x xs ih => exact (ih (callStep s x)).trans rfl

theorem foldl_callStep_linearized (l : List Nat) (s : CheckerState S) :
    (l.foldl callStep s).linearized = s.linearized := by
  induction l generalizing s with
  | nil => rfl
  | cons x xs ih => exact (ih (callStep s x)).trans rfl

theorem foldl_callStep_seq (l : List Nat) (s : CheckerState S) :
    (l.foldl callStep s).seq_spec = s.seq_spec := by
  induction l generalizing s with
  | nil => rfl
  | cons x xs ih => exact (ih (callStep s x)).trans rfl

theorem foldl_callStep_in_degree (l : List Nat) (hl : l.Nodup) (s : CheckerState S) (j : Nat) :
    (l.foldl callStep s).in_degree j =
      if j ∈ l then s.in_degree j - 1 else s.in_degree j := by
  induction l generalizing s with
  | nil => simp
  | cons y ys ih =>
    have hy : y ∉ ys := (List.nodup_cons.1 hl).1
    have hys : ys.Nodup := (List.nodup_cons.1 hl).2
    show (ys.foldl callStep (callStep s y)).in_degree j = _
    rw [ih hys]
    by_cases hjy : j = y
    · subst hjy
      simp [callStep_in_degree, hy]
    · by_cases hjs : j ∈ ys <;> simp [callStep_in_degree, hjy, hjs, List.mem_cons]

theorem foldl_callStep_minimal (l : List Nat) (hl : l.Nodup) (s : CheckerState S) (x : Nat) :
    x ∈ (l.foldl callStep s).minimal_invocations ↔
      x ∈ s.minimal_invocations ∨ (x ∈ l ∧ s.in_degree x - 1 = 0) := by
  induction l generalizing s with
  | nil => simp
  | cons y ys ih =>
    have hy : y ∉ ys := (List.nodup_cons.1 hl).1
    have hys : ys.Nodup := (List.nodup_cons.1 hl).2
    show x ∈ (ys.foldl callStep (callStep s y)).minimal_invocations ↔ _
    rw [ih hys]
    constructor
    · rintro (hmem | ⟨hxs, hdeg⟩)
      · rcases (callStep_minimal s y x).1 hmem with hmem' | ⟨hxy, hdy⟩
        · exact Or.inl hmem'
        · exact Or.inr ⟨by simp [hxy], by rwa [hxy]⟩
      · have hxy : x ≠ y := fun h => hy (h ▸ hxs)
        rw [callStep_in_degree, if_neg hxy] at hdeg
        exact Or.inr ⟨List.mem_cons_of_mem _ hxs, hdeg⟩
    · rintro (hmem | ⟨hxl, hdeg⟩)
      · exact Or.inl ((callStep_minimal s y x).2 (Or.inl hmem))
      · rcases List.mem_cons.1 hxl with hxy | hxs
        · exact Or.inl ((callStep_minimal s y x).2 (Or.inr ⟨hxy, hxy ▸ hdeg⟩))
        · have hxy : x ≠ y := fun h => hy (h ▸ hxs)
          exact Or.inr ⟨hxs, by rwa [callStep_in_degree, if_neg hxy]⟩

theorem foldl_callStep_minimal_nodup (l : List Nat) (hl : l.Nodup) (s : CheckerState S)
    (hs : s.minimal_invocations.Nodup) (hdisj : ∀ x ∈ l, x ∉ s.minimal_invocations) :
    (l.foldl callStep s).minimal_invocations.Nodup := by
  induction l generalizing s with
  | nil => exact hs
  | cons y ys ih =>
    have hy : y ∉ ys := (List.nodup_cons.1 hl).1
    have hys : ys.Nodup := (List.nodup_cons.1 hl).2
    show (ys.foldl callStep (callStep s y)).minimal_invocations.Nodup
    apply ih hys
    · show ((callStep s y).minimal_invocations).Nodup
      unfold callStep
      by_cases hd : s.in_degree y - 1 = 0
      · simpa [hd] using ⟨hdisj y (List.mem_cons_self y ys), hs⟩
      · simpa [hd] using hs
    · intro x hxs hmem
      rcases (callStep_minimal s y x).1 hmem with hmem' | ⟨hxy, -⟩
      · exact hdisj x (List.mem_cons_of_mem _ hxs) hmem'
      · exact hy (hxy ▸ hxs)

theorem foldl_undoStep_hb (l : List Nat) (s : CheckerState S) :
    (l.foldl undoStep s).hb = s.hb := by
  induction l generalizing s with
  | nil => rfl
  | cons x xs ih => exact (ih (undoStep s x)).trans (undoStep_hb s x)

theorem foldl_undoStep_linearized (l : List Nat) (s : CheckerState S) :
    (l.foldl undoStep s).linearized = s.linearized := by
  induction l generalizing s with
  | nil => rfl
  | cons x xs ih => exact (ih (undoStep s x)).trans (undoStep_linearized s x)

theorem foldl_undoStep_seq (l : List Nat) (s : CheckerState S) :
    (l.foldl undoStep s).seq_spec = s.seq_spec := by
  induction l generalizing s with
  | nil => rfl
  | cons x xs ih => exact (ih (undoStep s x)).trans (undoStep_seq s x)

theorem foldl_undoStep_in_degree (l : List Nat) (hl : l.Nodup) (s : CheckerState S) (j : Nat) :
    (l.foldl undoStep s).in_degree j =
      if j ∈ l then s.in_degree j + 1 else s.in_degree j := by
  induction l generalizing s with
  | nil => simp
  | cons y ys ih =>
    have hy : y ∉ ys := (List.nodup_cons.1 hl).1
    have hys : ys.Nodup := (List.nodup_cons.1 hl).2
    show (ys.foldl undoStep (undoStep s y)).in_degree j = _
    rw [ih hys]
    by_cases hjy : j = y
    · subst hjy
      simp [undoStep_in_degree, hy]
    · by_cases hjs : j ∈ ys <;> simp [undoStep_in_degree, hjy, hjs, List.mem_cons]

theorem foldl_undoStep_minimal (l : List Nat) (hl : l.Nodup) (s : CheckerState S) (x : Nat) :
    x ∈ (l.foldl undoStep s).minimal_invocations ↔
      x ∈ s.minimal_invocations ∧ ¬(x ∈ l ∧ s.in_degree x = 0) := by
  induction l generalizing s with
  | nil => simp
  | cons y ys ih =>
    have hy : y ∉ ys := (List.nodup_cons.1 hl).1
    have hys : ys.Nodup := (List.nodup_cons.1 hl).2
    show x ∈ (ys.foldl undoStep (undoStep s y)).minimal_invocations ↔ _
    rw [ih hys]
    rw [undoStep_minimal]
    constructor
    · rintro ⟨⟨hmem, hnot1⟩, hnot2⟩
      refine ⟨hmem, ?_⟩
      rintro ⟨hxl, hdeg⟩
      rcases List.mem_cons.1 hxl with hxy | hxs
      · exact hnot1 ⟨hxy, hxy ▸ hdeg⟩
      · have hxy : x ≠ y := fun h => hy (h ▸ hxs)
        exact hnot2 ⟨hxs, by rwa [undoStep_in_degree, if_neg hxy]⟩
    · rintro ⟨hmem, hnot⟩
      refine ⟨⟨hmem, ?_⟩, ?_⟩
      · rintro ⟨hxy, hdy⟩
        exact hnot ⟨List.mem_cons.2 (Or.inl hxy), hxy ▸ hdy⟩
      · rintro ⟨hxs, hdeg⟩
        have hxy : x ≠ y := fun h => hy (h ▸ hxs)
        rw [undoStep_in_degree, if_neg hxy] at hdeg
        exact hnot ⟨List.mem_cons_of_mem _ hxs, hdeg⟩

theorem foldl_undoStep_minimal_nodup (l : List Nat) (s : CheckerState S)
    (hs : s.minimal_invocations.Nodup) :
    (l.foldl undoStep s).minimal_invocations.Nodup := by
  induction l generalizing s with
  | nil => exact hs
  | cons y ys ih => exact ih (undoStep s y) (undoStep_minimal_nodup s y hs)

end Lincheck

namespace Lincheck

/-! Characterization of `call` and `stepState`, and preservation of the search
invariant when a minimal candidate is tentatively placed. -/

variable {S Op Ret : Type} [Inhabited Op] [Inhabited Ret] [DecidableEq Ret]

theorem hbFun_nodup (e : Execution Op Ret) (a : Nat) : (hbFun e a).Nodup :=
  (List.nodup_range _).filter _

theorem mem_hbFun_iff_hb (e : Execution Op Ret) (i b : Nat)
    (hi : i < e.parallel_part.length) : b ∈ hbFun e i ↔ HB e i b := by
  rw [mem_hbFun]
  unfold HB
  tauto

theorem remainingPreds_zero_iff (e : Execution Op Ret) (lin : List Nat) (j : Nat) :
    remainingPreds e lin j = 0 ↔ ∀ a, HB e a j → a ∈ lin := by
  unfold remainingPreds
  rw [List.length_eq_zero, List.filter_eq_nil_iff]
  constructor
  · intro h a hab
    by_contra hmem
    exact h a (List.mem_range.2 hab.1) (by simp [hab, hmem])
  · intro h a _ hdec
    simp only [Bool.and_eq_true, decide_eq_true_eq] at hdec
    exact hdec.2 (h a hdec.1)

theorem remainingPreds_pos (e : Execution Op Ret) (lin : List Nat) (i j : Nat)
    (hij : HB e i j) (hi : i ∉ lin) : 0 < remainingPreds e lin j := by
  unfold remainingPreds
  exact List.length_pos_of_mem
    (List.mem_filter.2 ⟨List.mem_range.2 hij.1, by simp [hij, hi]⟩)

theorem remainingPreds_append_singleton (e : Execution Op Ret) (lin : List Nat) (i j : Nat)
    (hi : i ∉ lin) :
    remainingPreds e (lin ++ [i]) j =
      if HB e i j then remainingPreds e lin j - 1 else remainingPreds e lin j := by
  unfold remainingPreds
  have hsplit : (List.range e.parallel_part.length).filter
        (fun a => decide (HB e a j) && decide (a ∉ lin ++ [i])) =
      ((List.range e.parallel_part.length).filter
        (fun a => decide (HB e a j) && decide (a ∉ lin))).filter (fun a => decide (a ≠ i)) := by
    rw [List.filter_filter]
    apply List.filter_congr
    intro a _
    by_cases h₁ : HB e a j <;> by_cases h₂ : a ∈ lin <;> by_cases h₃ : a = i <;>
      simp [h₁, h₂, h₃]
  rw [hsplit]
  set lP := (List.range e.parallel_part.length).filter
    (fun a => decide (HB e a j) && decide (a ∉ lin)) with hlP
  have hnodup : lP.Nodup := (List.nodup_range _).filter _
  have hfe : (fun a : Nat => decide (a ≠ i)) = (fun a : Nat => a != i) := by
    funext a
    by_cases h : a = i <;> simp [h]
  rw [hfe]
  by_cases hij : HB e i j
  · have himem : i ∈ lP := by
      rw [hlP]
      exact List.mem_filter.2 ⟨List.mem_range.2 hij.1, by simp [hij, hi]⟩
    rw [if_pos hij, ← hnodup.erase_eq_filter i, List.length_erase_of_mem himem]
  · have himem : i ∉ lP := by
      rw [hlP]
      intro hmem
      rcases List.mem_filter.1 hmem with ⟨-, hdec⟩
      simp only [Bool.and_eq_true, decide_eq_true_eq] at hdec
      exact hij hdec.1
    rw [if_neg hij, ← hnodup.erase_eq_filter i, List.erase_of_not_mem himem]

theorem call_hb (st : CheckerState S) (i : Nat) : (call i st).hb = st.hb := by
  unfold call
  rw [foldl_callStep_hb]

theorem call_linearized (st : CheckerState S) (i : Nat) :
    (call i st).linearized = st.linearized ++ [i] := by
  unfold call
  rw [foldl_callStep_linearized]

theorem call_seq (st : CheckerState S) (i : Nat) : (call i st).seq_spec = st.seq_spec := by
  unfold call
  rw [foldl_callStep_seq]

theorem call_in_degree (st : CheckerState S) (i : Nat) (hnd : (st.hb i).Nodup) (j : Nat) :
    (call i st).in_degree j =
      if j ∈ st.hb i then st.in_degree j - 1 else st.in_degree j := by
  unfold call
  rw [foldl_callStep_in_degree _ hnd]

theorem call_minimal (st : CheckerState S) (i : Nat) (hnd : (st.hb i).Nodup) (x : Nat) :
    x ∈ (call i st).minimal_invocations ↔
      (x ∈ st.minimal_invocations ∧ x ≠ i) ∨ (x ∈ st.hb i ∧ st.in_degree x - 1 = 0) := by
  unfold call
  rw [foldl_callStep_minimal _ hnd]
  simp [List.mem_filter]

theorem call_minimal_nodup (st : CheckerState S) (i : Nat) (hnd : (st.hb i).Nodup)
    (hmnd : st.minimal_invocations.Nodup)
    (hdisj : ∀ x ∈ st.hb i, x ∉ st.minimal_invocations) :
    (call i st).minimal_invocations.Nodup := by
  unfold call
  apply foldl_callStep_minimal_nodup _ hnd
  · exact hmnd.filter _
  · intro x hx hmem
    exact hdisj x hx (List.mem_filter.1 hmem).1

theorem stepState_hb (sq : SeqSpec S Op Ret) (e : Execution Op Ret) (i : Nat)
    (st : CheckerState S) : (stepState sq e i st).hb = st.hb := call_hb st i

theorem stepState_linearized (sq : SeqSpec S Op Ret) (e : Execution Op Ret) (i : Nat)
    (st : CheckerState S) : (stepState sq e i st).linearized = st.linearized ++ [i] :=
  call_linearized st i

theorem stepState_seq (sq : SeqSpec S Op Ret) (e : Execution Op Ret) (i : Nat)
    (st : CheckerState S) :
    (stepState sq e i st).seq_spec = (sq.exec st.seq_spec (opAt e i)).1 := by
  show (sq.exec (call i st).seq_spec (opAt e i)).1 = _
  rw [call_seq]

theorem stepState_in_degree (sq : SeqSpec S Op Ret) (e : Execution Op Ret) (i : Nat)
    (st : CheckerState S) (hnd : (st.hb i).Nodup) (j : Nat) :
    (stepState sq e i st).in_degree j =
      if j ∈ st.hb i then st.in_degree j - 1 else st.in_degree j := call_in_degree st i hnd j

theorem stepState_minimal (sq : SeqSpec S Op Ret) (e : Execution Op Ret) (i : Nat)
    (st : CheckerState S) (hnd : (st.hb i).Nodup) (x : Nat) :
    x ∈ (stepState sq e i st).minimal_invocations ↔
      (x ∈ st.minimal_invocations ∧ x ≠ i) ∨ (x ∈ st.hb i ∧ st.in_degree x - 1 = 0) :=
  call_minimal st i hnd x

theorem builtSeq_append_singleton (sq : SeqSpec S Op Ret) (e : Execution Op Ret)
    (lin : List Nat) (i : Nat) :
    builtSeq sq e (lin ++ [i]) = (sq.exec (builtSeq sq e lin) (opAt e i)).1 := by
  unfold builtSeq
  rw [List.map_append, seqRunOps_append]
  rfl

/-- Placing a minimal candidate and executing its op preserves the search
invariant (no well-formedness of the execution is needed). -/
theorem inv_step (sq : SeqSpec S Op Ret) (e : Execution Op Ret) (st : CheckerState S)
    (hinv : Inv sq e st) (i : Nat) (hmem : i ∈ st.minimal_invocations) :
    Inv sq e (stepState sq e i st) := by
  obtain ⟨hi_n, hi_lin, hi_deg⟩ := (hinv.min_iff i).1 hmem
  have hpreds : ∀ a, HB e a i → a ∈ st.linearized := by
    apply (remainingPreds_zero_iff e _ i).1
    rw [← hinv.deg_eq i hi_n]
    exact hi_deg
  have hsuccs_nd : (st.hb i).Nodup := by
    rw [hinv.hb_eq]
    exact hbFun_nodup e i
  have hsucc_iff : ∀ b, b ∈ st.hb i ↔ HB e i b := by
    intro b
    rw [hinv.hb_eq]
    exact mem_hbFun_iff_hb e i b hi_n
  have hsucc_deg : ∀ b ∈ st.hb i, 0 < st.in_degree b := by
    intro b hb
    have hhb := (hsucc_iff b).1 hb
    rw [hinv.deg_eq b hhb.2.1]
    exact remainingPreds_pos e _ i b hhb hi_lin
  have hii : ¬ HB e i i := fun h => hi_lin (hpreds i h)
  have hsucc_nlin : ∀ b ∈ st.hb i, b ∉ st.linearized := by
    intro b hb hblin
    exact hi_lin (hinv.lin_closed b hblin i ((hsucc_iff b).1 hb))
  have hsucc_nmin : ∀ b ∈ st.hb i, b ∉ st.minimal_invocations := by
    intro b hb hbmin
    exact absurd ((hinv.min_iff b).1 hbmin).2.2 (hsucc_deg b hb).ne'
  refine ⟨?_, ?_, ?_, ?_, ?_, ?_, ?_, ?_, ?_⟩
  · rw [stepState_hb]
    exact hinv.hb_eq
  · rw [stepState_linearized]
    intro x hx
    rcases List.mem_append.1 hx with hx | hx
    · exact hinv.lin_mem x hx
    · rwa [List.mem_singleton.1 hx]
  · rw [stepState_linearized]
    exact hinv.lin_nodup.append (List.nodup_singleton i)
      (fun x hx hx' => absurd (List.mem_singleton.1 hx' ▸ hx) hi_lin)
  · rw [stepState_linearized]
    unfold RespectsHB
    rw [List.pairwise_append]
    refine ⟨hinv.lin_resp, List.pairwise_singleton _ _, ?_⟩
    intro a ha b hb
    rw [List.mem_singleton.1 hb]
    intro hba
    exact hi_lin (hinv.lin_closed a ha i hba)
  · rw [stepState_linearized]
    intro j hj a ha
    rcases List.mem_append.1 hj with hj | hj
    · exact List.mem_append.2 (Or.inl (hinv.lin_closed j hj a ha))
    · rw [List.mem_singleton.1 hj] at ha
      exact List.mem_append.2 (Or.inl (hpreds a ha))
  · intro j hjn
    rw [stepState_in_degree sq e i st hsuccs_nd, stepState_linearized,
      remainingPreds_append_singleton e _ i j hi_lin]
    by_cases hj : j ∈ st.hb i
    · rw [if_pos hj, if_pos ((hsucc_iff j).1 hj), hinv.deg_eq j hjn]
    · rw [if_neg hj, if_neg (fun h => hj ((hsucc_iff j).2 h)), hinv.deg_eq j hjn]
  · show (call i st).minimal_invocations.Nodup
    exact call_minimal_nodup st i hsuccs_nd hinv.min_nodup hsucc_nmin
  · intro x
    rw [stepState_minimal sq e i st hsuccs_nd, stepState_linearized,
      stepState_in_degree sq e i st hsuccs_nd]
    constructor
    · rintro (⟨hxm, hxi⟩ | ⟨hxs, hdx⟩)
      · obtain ⟨hxn, hxlin, hxdeg⟩ := (hinv.min_iff x).1 hxm
        have hxns : x ∉ st.hb i := fun hxs => absurd hxdeg (hsucc_deg x hxs).ne'
        refine ⟨hxn, ?_, by rwa [if_neg hxns]⟩
        intro hx
        rcases List.mem_append.1 hx with hx | hx
        · exact hxlin hx
        · exact hxi (List.mem_singleton.1 hx)
      · have hhb := (hsucc_iff x).1 hxs
        refine ⟨hhb.2.1, ?_, by rwa [if_pos hxs]⟩
        intro hx
        rcases List.mem_append.1 hx with hx | hx
        · exact hi_lin (hinv.lin_closed x hx i hhb)
        · rw [List.mem_singleton.1 hx] at hhb
          exact hii hhb
    · rintro ⟨hxn, hxlin, hxdeg⟩
      have hxlin' : x ∉ st.linearized := fun h => hxlin (List.mem_append.2 (Or.inl h))
      have hxi : x ≠ i := fun h => hxlin (List.mem_append.2 (Or.inr (List.mem_singleton.2 h)))
      by_cases hxs : x ∈ st.hb i
      · rw [if_pos hxs] at hxdeg
        exact Or.inr ⟨hxs, hxdeg⟩
      · rw [if_neg hxs] at hxdeg
        exact Or.inl ⟨(hinv.min_iff x).2 ⟨hxn, hxlin', hxdeg⟩, hxi⟩
  · rw [stepState_seq, stepState_linearized, hinv.seq_eq, builtSeq_append_singleton]

end Lincheck

namespace Lincheck

/-! Characterization of `undo` and `rebuild_seq_spec`: a failed branch's undo
followed by the rebuild restores the state entered at `call`, up to the order
of the minimal hash set. -/

variable {S Op Ret : Type} [Inhabited Op] [Inhabited Ret] [DecidableEq Ret]

theorem StEq.refl (st : CheckerState S) : StEq st st :=
  ⟨rfl, rfl, rfl, rfl, List.Perm.refl _⟩

theorem StEq.symm {st₁ st₂ : CheckerState S} (h : StEq st₁ st₂) : StEq st₂ st₁ :=
  ⟨h.1.symm, h.2.1.symm, h.2.2.1.symm, h.2.2.2.1.symm, h.2.2.2.2.symm⟩

theorem StEq.trans {st₁ st₂ st₃ : CheckerState S} (h : StEq st₁ st₂) (h' : StEq st₂ st₃) :
    StEq st₁ st₃ :=
  ⟨h.1.trans h'.1, h.2.1.trans h'.2.1, h.2.2.1.trans h'.2.2.1,
    h.2.2.2.1.trans h'.2.2.2.1, h.2.2.2.2.trans h'.2.2.2.2⟩

theorem rebuild_hb (sq : SeqSpec S Op Ret) (e : Execution Op Ret) (st : CheckerState S) :
    (rebuildSeqSpec sq e st).hb = st.hb := rfl

theorem rebuild_in_degree (sq : SeqSpec S Op Ret) (e : Execution Op Ret) (st : CheckerState S) :
    (rebuildSeqSpec sq e st).in_degree = st.in_degree := rfl

theorem rebuild_linearized (sq : SeqSpec S Op Ret) (e : Execution Op Ret) (st : CheckerState S) :
    (rebuildSeqSpec sq e st).linearized = st.linearized := rfl

theorem rebuild_minimal (sq : SeqSpec S Op Ret) (e : Execution Op Ret) (st : CheckerState S) :
    (rebuildSeqSpec sq e st).minimal_invocations = st.minimal_invocations := rfl

theorem rebuild_seq (sq : SeqSpec S Op Ret) (e : Execution Op Ret) (st : CheckerState S) :
    (rebuildSeqSpec sq e st).seq_spec = builtSeq sq e st.linearized := rfl

theorem undo_hb (st : CheckerState S) (i : Nat) : (undo i st).hb = st.hb :=
  foldl_undoStep_hb _ _

theorem undo_linearized (st : CheckerState S) (i : Nat) :
    (undo i st).linearized = st.linearized.dropLast := by
  show ((st.hb i).foldl undoStep st).linearized.dropLast = _
  rw [foldl_undoStep_linearized]

theorem undo_in_degree (st : CheckerState S) (i : Nat) (hnd : (st.hb i).Nodup) (j : Nat) :
    (undo i st).in_degree j =
      if j ∈ st.hb i then st.in_degree j + 1 else st.in_degree j := by
  show ((st.hb i).foldl undoStep st).in_degree j = _
  rw [foldl_undoStep_in_degree _ hnd]

theorem undo_minimal (st : CheckerState S) (i : Nat) (hnd : (st.hb i).Nodup) (x : Nat) :
    x ∈ (undo i st).minimal_invocations ↔
      x = i ∨ (x ∈ st.minimal_invocations ∧ ¬(x ∈ st.hb i ∧ st.in_degree x = 0)) := by
  show x ∈ i :: ((st.hb i).foldl undoStep st).minimal_invocations ↔ _
  rw [List.mem_cons, foldl_undoStep_minimal _ hnd]

theorem undo_minimal_nodup (st : CheckerState S) (i : Nat) (hnd : (st.hb i).Nodup)
    (hmnd : st.minimal_invocations.Nodup) (hi : i ∉ st.minimal_invocations) :
    (undo i st).minimal_invocations.Nodup := by
  show (i :: ((st.hb i).foldl undoStep st).minimal_invocations).Nodup
  rw [List.nodup_cons]
  refine ⟨?_, foldl_undoStep_minimal_nodup _ st hmnd⟩
  rw [foldl_undoStep_minimal _ hnd]
  rintro ⟨hmem, -⟩
  exact hi hmem

/-- After a failed candidate, `undo` followed by `rebuild_seq_spec` restores
exactly the state from before `call`: the linearization, in-degrees and
sequential state are equal, and the minimal set is restored up to hash order. -/
theorem inv_restore (sq : SeqSpec S Op Ret) (e : Execution Op Ret) (st : CheckerState S)
    (hinv : Inv sq e st) (i : Nat) (hmem : i ∈ st.minimal_invocations) :
    StEq (rebuildSeqSpec sq e (undo i (stepState sq e i st))) st := by
  obtain ⟨hi_n, hi_lin, hi_deg⟩ := (hinv.min_iff i).1 hmem
  have hinv2 := inv_step sq e st hinv i hmem
  have hsuccs_nd : (st.hb i).Nodup := by
    rw [hinv.hb_eq]
    exact hbFun_nodup e i
  have hsucc_iff : ∀ b, b ∈ st.hb i ↔ HB e i b := by
    intro b
    rw [hinv.hb_eq]
    exact mem_hbFun_iff_hb e i b hi_n
  have hsucc_deg : ∀ b ∈ st.hb i, 0 < st.in_degree b := by
    intro b hb
    have hhb := (hsucc_iff b).1 hb
    rw [hinv.deg_eq b hhb.2.1]
    exact remainingPreds_pos e _ i b hhb hi_lin
  have hii : i ∉ st.hb i := fun h => absurd hi_deg (hsucc_deg i h).ne'
  have hhb_ss : (stepState sq e i st).hb = st.hb := stepState_hb sq e i st
  have hnd_ss : ((stepState sq e i st).hb i).Nodup := by
    rw [hhb_ss]
    exact hsuccs_nd
  have hlin_ss : (stepState sq e i st).linearized = st.linearized ++ [i] :=
    stepState_linearized sq e i st
  have hlin_u : (undo i (stepState sq e i st)).linearized = st.linearized := by
    rw [undo_linearized, hlin_ss, List.dropLast_concat]
  refine ⟨?_, ?_, ?_, ?_, ?_⟩
  · rw [rebuild_hb, undo_hb, hhb_ss]
  · rw [rebuild_in_degree]
    funext j
    rw [undo_in_degree _ i hnd_ss, hhb_ss, stepState_in_degree sq e i st hsuccs_nd]
    by_cases hj : j ∈ st.hb i
    · rw [if_pos hj, if_pos hj, Nat.sub_add_cancel (hsucc_deg j hj)]
    · rw [if_neg hj, if_neg hj]
  · rw [rebuild_linearized, hlin_u]
  · rw [rebuild_seq, hlin_u, hinv.seq_eq]
  · rw [rebuild_minimal]
    have hi_ssmin : i ∉ (stepState sq e i st).minimal_invocations := by
      intro h
      have := ((hinv2.min_iff i).1 h).2.1
      rw [hlin_ss] at this
      exact this (List.mem_append.2 (Or.inr (List.mem_singleton.2 rfl)))
    have hund : (undo i (stepState sq e i st)).minimal_invocations.Nodup :=
      undo_minimal_nodup _ i hnd_ss hinv2.min_nodup hi_ssmin
    rw [List.perm_ext_iff_of_nodup hund hinv.min_nodup]
    intro x
    rw [undo_minimal _ i hnd_ss, hhb_ss, stepState_minimal sq e i st hsuccs_nd,
      stepState_in_degree sq e i st hsuccs_nd]
    constructor
    · rintro (hxi | ⟨hss, hnot⟩)
      · rwa [hxi]
      · rcases hss with ⟨hxm, -⟩ | ⟨hxs, hdx⟩
        · exact hxm
        · exact absurd ⟨hxs, by rwa [if_pos hxs]⟩ hnot
    · intro hxm
      by_cases hxi : x = i
      · exact Or.inl hxi
      · refine Or.inr ⟨Or.inl ⟨hxm, hxi⟩, ?_⟩
        rintro ⟨hxs, -⟩
        exact absurd ((hinv.min_iff x).1 hxm).2.2 (hsucc_deg x hxs).ne'

end Lincheck

namespace Lincheck

/-! The search invariant and the checker's verdict are insensitive to the
iteration order of the minimal hash set. -/

variable {S Op Ret : Type} [Inhabited Op] [Inhabited Ret] [DecidableEq Ret]

theorem inv_of_stEq (sq : SeqSpec S Op Ret) (e : Execution Op Ret) {st₁ st₂ : CheckerState S}
    (hinv : Inv sq e st₁) (heq : StEq st₁ st₂) : Inv sq e st₂ := by
  obtain ⟨hhb, hdeg, hlin, hseq, hmin⟩ := heq
  refine ⟨?_, ?_, ?_, ?_, ?_, ?_, ?_, ?_, ?_⟩
  · rw [← hhb]
    exact hinv.hb_eq
  · rw [← hlin]
    exact hinv.lin_mem
  · rw [← hlin]
    exact hinv.lin_nodup
  · rw [← hlin]
    exact hinv.lin_resp
  · rw [← hlin]
    exact hinv.lin_closed
  · rw [← hdeg, ← hlin]
    exact hinv.deg_eq
  · exact hmin.nodup hinv.min_nodup
  · intro i
    rw [← hmin.mem_iff, ← hlin, ← hdeg]
    exact hinv.min_iff i
  · rw [← hseq, ← hlin]
    exact hinv.seq_eq

theorem callStep_stEq {st₁ st₂ : CheckerState S} (heq : StEq st₁ st₂) (y : Nat) :
    StEq (callStep st₁ y) (callStep st₂ y) := by
  obtain ⟨hhb, hdeg, hlin, hseq, hmin⟩ := heq
  refine ⟨hhb, ?_, hlin, hseq, ?_⟩
  · funext j
    rw [callStep_in_degree, callStep_in_degree, hdeg]
  · show (if st₁.in_degree y - 1 = 0 then y :: st₁.minimal_invocations
        else st₁.minimal_invocations).Perm
      (if st₂.in_degree y - 1 = 0 then y :: st₂.minimal_invocations
        else st₂.minimal_invocations)
    rw [hdeg]
    by_cases hd : st₂.in_degree y - 1 = 0
    · rw [if_pos hd, if_pos hd]
      exact hmin.cons y
    · rw [if_neg hd, if_neg hd]
      exact hmin

theorem foldl_callStep_stEq (l : List Nat) {st₁ st₂ : CheckerState S} (heq : StEq st₁ st₂) :
    StEq (l.foldl callStep st₁) (l.foldl callStep st₂) := by
  induction l generalizing st₁ st₂ with
  | nil => exact heq
  | cons y ys ih => exact ih (callStep_stEq heq y)

theorem call_stEq (i : Nat) {st₁ st₂ : CheckerState S} (heq : StEq st₁ st₂) :
    StEq (call i st₁) (call i st₂) := by
  obtain ⟨hhb, hdeg, hlin, hseq, hmin⟩ := heq
  unfold call
  rw [← hhb]
  exact foldl_callStep_stEq _ ⟨rfl, hdeg, by rw [hlin], hseq, hmin.filter _⟩

theorem stepState_stEq (sq : SeqSpec S Op Ret) (e : Execution Op Ret) (i : Nat)
    {st₁ st₂ : CheckerState S} (heq : StEq st₁ st₂) :
    StEq (stepState sq e i st₁) (stepState sq e i st₂) := by
  have hc := call_stEq i heq
  obtain ⟨hhb, hdeg, hlin, hseq, hmin⟩ := hc
  refine ⟨hhb, hdeg, hlin, ?_, hmin⟩
  show (sq.exec (call i st₁).seq_spec (opAt e i)).1 = (sq.exec (call i st₂).seq_spec (opAt e i)).1
  rw [hseq]

theorem tryCandidates_nil (sq : SeqSpec S Op Ret) (e : Execution Op Ret)
    (r : CheckerState S → Bool) (st : CheckerState S) :
    tryCandidates sq e r [] st = false := rfl

theorem tryCandidates_cons (sq : SeqSpec S Op Ret) (e : Execution Op Ret)
    (r : CheckerState S → Bool) (c : Nat) (rest : List Nat) (st : CheckerState S) :
    tryCandidates sq e r (c :: rest) st =
      if (sq.exec (call c st).seq_spec (opAt e c)).2 = retAt e c ∧
          r (stepState sq e c st) = true then true
      else tryCandidates sq e r rest
        (rebuildSeqSpec sq e (undo c (stepState sq e c st))) := rfl

/-- The candidate loop of `check_parallel_part` succeeds iff some candidate of
the snapshot matches its recorded return and makes the recursive search
succeed — regardless of the snapshot's iteration order, because each failed
candidate's undo and rebuild restore the state up to hash order. -/
theorem tryCandidates_any (sq : SeqSpec S Op Ret) (e : Execution Op Ret)
    (r : CheckerState S → Bool)
    (hrst : ∀ s₁ s₂ : CheckerState S, Inv sq e s₁ → StEq s₁ s₂ → r s₁ = r s₂)
    (st : CheckerState S) (hinv : Inv sq e st) :
    ∀ (cands : List Nat) (st' : CheckerState S), StEq st st' →
      (∀ c ∈ cands, c ∈ st.minimal_invocations) →
      (tryCandidates sq e r cands st' = true ↔
        ∃ c ∈ cands, (sq.exec st.seq_spec (opAt e c)).2 = retAt e c ∧
          r (stepState sq e c st) = true) := by
  intro cands
  induction cands with
  | nil =>
    intro st' _ _
    simp [tryCandidates_nil]
  | cons c rest ih =>
    intro st' heq hsub
    have hcmem : c ∈ st.minimal_invocations := hsub c (List.mem_cons_self c rest)
    have hinv_sc : Inv sq e (stepState sq e c st) := inv_step sq e st hinv c hcmem
    have heq_sc : StEq (stepState sq e c st) (stepState sq e c st') := stepState_stEq sq e c heq
    have hseq' : (call c st').seq_spec = st.seq_spec := by
      rw [call_seq]
      exact heq.2.2.2.1.symm
    have hr_eq : r (stepState sq e c st') = r (stepState sq e c st) :=
      (hrst _ _ hinv_sc heq_sc).symm
    rw [tryCandidates_cons]
    by_cases hcond : (sq.exec st.seq_spec (opAt e c)).2 = retAt e c ∧
        r (stepState sq e c st) = true
    · rw [if_pos (by rw [hseq', hr_eq]; exact hcond)]
      constructor
      · intro _
        exact ⟨c, List.mem_cons_self c rest, hcond⟩
      · intro _
        rfl
    · rw [if_neg (by rw [hseq', hr_eq]; exact hcond)]
      have hrest : StEq st (rebuildSeqSpec sq e (undo c (stepState sq e c st'))) := by
        have hres := inv_restore sq e st' (inv_of_stEq sq e hinv heq) c
          (heq.2.2.2.2.mem_iff.1 hcmem)
        exact heq.trans hres.symm
      rw [ih _ hrest (fun c' hc' => hsub c' (List.mem_cons_of_mem _ hc'))]
      constructor
      · rintro ⟨c', hc', hok⟩
        exact ⟨c', List.mem_cons_of_mem _ hc', hok⟩
      · rintro ⟨c', hc', hok⟩
        rcases List.mem_cons.1 hc' with hcc | hc'
        · exact absurd (hcc ▸ hok) hcond
        · exact ⟨c', hc', hok⟩

end Lincheck

namespace Lincheck

/-! Order-independence of the parallel search, the invariant at the initial
state, and determinism of the checker (claim C4). -/

variable {S Op Ret : Type} [Inhabited Op] [Inhabited Ret] [DecidableEq Ret]

theorem checkParallelPartO_zero (ord : List Nat → List Nat) (sq : SeqSpec S Op Ret)
    (e : Execution Op Ret) (st : CheckerState S) :
    checkParallelPartO ord sq e 0 st = false := rfl

theorem checkParallelPartO_succ (ord : List Nat → List Nat) (sq : SeqSpec S Op Ret)
    (e : Execution Op Ret) (fuel : Nat) (st : CheckerState S) :
    checkParallelPartO ord sq e (fuel + 1) st =
      if st.minimal_invocations.isEmpty then checkPostPart sq e st
      else tryCandidates sq e (checkParallelPartO ord sq e fuel)
        (ord st.minimal_invocations) st := rfl

/-- On states satisfying the search invariant, the verdict of the parallel
search does not depend on the iteration order of the minimal hash set, nor on
its list representation. -/
theorem checkParallelPartO_congr (sq : SeqSpec S Op Ret) (e : Execution Op Ret) :
    ∀ (fuel : Nat) (ordA ordB : List Nat → List Nat),
      (∀ l, (ordA l).Perm l) → (∀ l, (ordB l).Perm l) →
      ∀ (s₁ s₂ : CheckerState S), Inv sq e s₁ → StEq s₁ s₂ →
      checkParallelPartO ordA sq e fuel s₁ = checkParallelPartO ordB sq e fuel s₂ := by
  intro fuel
  induction fuel with
  | zero =>
    intro ordA ordB hA hB s₁ s₂ _ _
    rfl
  | succ fuel ih =>
    intro ordA ordB hA hB s₁ s₂ hinv heq
    rw [checkParallelPartO_succ, checkParallelPartO_succ]
    have hminperm : s₁.minimal_invocations.Perm s₂.minimal_invocations := heq.2.2.2.2
    have hemp : s₁.minimal_invocations.isEmpty = s₂.minimal_invocations.isEmpty := by
      by_cases h : s₁.minimal_invocations = []
      · have h2 : s₂.minimal_invocations = [] := by
          rw [h] at hminperm
          exact hminperm.symm.eq_nil
        rw [h, h2]
      · have h2 : s₂.minimal_invocations ≠ [] := by
          intro h2
          rw [h2] at hminperm
          exact h hminperm.eq_nil
        cases hc1 : s₁.minimal_invocations with
        | nil => exact absurd hc1 h
        | cons a l1 =>
          cases hc2 : s₂.minimal_invocations with
          | nil => exact absurd hc2 h2
          | cons b l2 => rfl
    rw [← hemp]
    by_cases hempty : s₁.minimal_invocations.isEmpty
    · rw [if_pos hempty, if_pos hempty]
      unfold checkPostPart
      rw [heq.2.2.2.1]
    · rw [if_neg hempty, if_neg hempty]
      have h1 := tryCandidates_any sq e (checkParallelPartO ordA sq e fuel)
        (fun a b ha hab => ih ordA ordA hA hA a b ha hab) s₁ hinv
        (ordA s₁.minimal_invocations) s₁ (StEq.refl s₁)
        (fun c hc => (hA s₁.minimal_invocations).mem_iff.1 hc)
      have h2 := tryCandidates_any sq e (checkParallelPartO ordB sq e fuel)
        (fun a b ha hab => ih ordB ordB hB hB a b ha hab) s₁ hinv
        (ordB s₂.minimal_invocations) s₂ heq
        (fun c hc => hminperm.mem_iff.2 ((hB s₂.minimal_invocations).mem_iff.1 hc))
      have h3 : (∃ c ∈ ordA s₁.minimal_invocations,
            (sq.exec s₁.seq_spec (opAt e c)).2 = retAt e c ∧
            checkParallelPartO ordA sq e fuel (stepState sq e c s₁) = true) ↔
          (∃ c ∈ ordB s₂.minimal_invocations,
            (sq.exec s₁.seq_spec (opAt e c)).2 = retAt e c ∧
            checkParallelPartO ordB sq e fuel (stepState sq e c s₁) = true) := by
        constructor
        · rintro ⟨c, hc, hm, hr⟩
          have hc1 : c ∈ s₁.minimal_invocations := (hA _).mem_iff.1 hc
          refine ⟨c, (hB _).mem_iff.2 (hminperm.mem_iff.1 hc1), hm, ?_⟩
          rw [← ih ordA ordB hA hB _ _ (inv_step sq e s₁ hinv c hc1) (StEq.refl _)]
          exact hr
        · rintro ⟨c, hc, hm, hr⟩
          have hc1 : c ∈ s₁.minimal_invocations :=
            hminperm.mem_iff.2 ((hB _).mem_iff.1 hc)
          refine ⟨c, (hA _).mem_iff.2 hc1, hm, ?_⟩
          rw [ih ordA ordB hA hB _ _ (inv_step sq e s₁ hinv c hc1) (StEq.refl _)]
          exact hr
      have h4 := h1.trans (h3.trans h2.symm)
      by_cases hL : tryCandidates sq e (checkParallelPartO ordA sq e fuel)
          (ordA s₁.minimal_invocations) s₁ = true
      · rw [hL, h4.1 hL]
      · have hR : ¬ tryCandidates sq e (checkParallelPartO ordB sq e fuel)
            (ordB s₂.minimal_invocations) s₂ = true := fun h => hL (h4.2 h)
        rw [Bool.not_eq_true] at hL hR
        rw [hL, hR]

/-- The state entering the parallel search from a successful init replay
satisfies the search invariant. -/
theorem initial_inv (sq : SeqSpec S Op Ret) (e : Execution Op Ret) (s : S)
    (hs : replay sq sq.default e.init_part = some s) :
    Inv sq e { initState sq e with seq_spec := s } := by
  refine ⟨rfl, ?_, List.nodup_nil, List.Pairwise.nil, ?_, ?_, ?_, ?_, ?_⟩
  · intro i hi
    exact absurd hi (List.not_mem_nil i)
  · intro j hj
    exact absurd hj (List.not_mem_nil j)
  · intro j hj
    show inDegreeFun e j = remainingPreds e [] j
    unfold inDegreeFun remainingPreds
    congr 1
    apply List.filter_congr
    intro a ha
    have han : a < e.parallel_part.length := List.mem_range.1 ha
    have hjh : j ∈ hbFun e a ↔ HB e a j := mem_hbFun_iff_hb e a j han
    by_cases hb : HB e a j <;> simp [hb, hjh]
  · show (minimalList e).Nodup
    exact (List.nodup_range _).filter _
  · intro i
    show i ∈ minimalList e ↔ _
    unfold minimalList
    rw [List.mem_filter, List.mem_range]
    constructor
    · rintro ⟨hin, hdeg⟩
      exact ⟨hin, List.not_mem_nil i, by simpa using hdeg⟩
    · rintro ⟨hin, -, hdeg⟩
      exact ⟨hin, by simpa using hdeg⟩
  · show s = builtSeq sq e []
    unfold builtSeq
    show s = seqRunOps sq (seqRunOps sq sq.default (e.init_part.map Invocation.op)) []
    rw [show seqRunOps sq (seqRunOps sq sq.default (e.init_part.map Invocation.op)) [] =
      seqRunOps sq sq.default (e.init_part.map Invocation.op) from rfl]
    exact (replay_some_run sq _ s e.init_part hs).symm

/-- C4: the verdict of `check` is a function of the execution and the
sequential spec alone: it does not depend on the iteration order of the
`minimal_invocations` hash set (modelled by the order oracles, which may
permute each snapshot arbitrarily). -/
theorem check_deterministic (sq : SeqSpec S Op Ret) (e : Execution Op Ret)
    (ord₁ ord₂ : List Nat → List Nat)
    (h₁ : ∀ l, (ord₁ l).Perm l) (h₂ : ∀ l, (ord₂ l).Perm l) :
    checkO ord₁ sq e = checkO ord₂ sq e := by
  unfold checkO checkInitPartO
  cases hr : replay sq (initState sq e).seq_spec e.init_part with
  | none => rfl
  | some s =>
    exact checkParallelPartO_congr sq e _ ord₁ ord₂ h₁ h₂ _ _
      (initial_inv sq e s hr) (StEq.refl _)

/-- Witness for C4: reversed iteration order gives the same verdict on the
overlapping-pops execution. -/
theorem check_deterministic_witness :
    checkO (fun l => l.reverse) stackSpec execOverlap =
      checkO (fun l => l) stackSpec execOverlap :=
  check_deterministic stackSpec execOverlap _ _
    (fun l => l.reverse_perm) (fun l => List.Perm.refl l)

end Lincheck

namespace Lincheck

/-! Completeness of the frontier: with an empty minimal set everything is
placed, and a completion exists iff some minimal candidate extends to one. -/

variable {S Op Ret : Type} [Inhabited Op] [Inhabited Ret] [DecidableEq Ret]

/-- With a well-formed execution, an empty search frontier means every parallel
invocation has been linearized (the unlinearized invocation with the smallest
call timestamp would otherwise be minimal). -/
theorem linearized_complete_of_minimal_empty (sq : SeqSpec S Op Ret) (e : Execution Op Ret)
    (st : CheckerState S) (hinv : Inv sq e st) (hwf : WellFormed e)
    (hmin : st.minimal_invocations = []) :
    st.linearized.Perm (List.range e.parallel_part.length) := by
  rw [List.perm_ext_iff_of_nodup hinv.lin_nodup (List.nodup_range _)]
  intro x
  rw [List.mem_range]
  constructor
  · exact hinv.lin_mem x
  · intro hx
    by_contra hxlin
    obtain ⟨a, ha, hamin⟩ := Finset.exists_min_image
      ((Finset.range e.parallel_part.length).filter (fun a => a ∉ st.linearized))
      (fun a => callTs e a)
      ⟨x, Finset.mem_filter.2 ⟨Finset.mem_range.2 hx, hxlin⟩⟩
    rcases Finset.mem_filter.1 ha with ⟨han, halin⟩
    rw [Finset.mem_range] at han
    have hdeg : st.in_degree a = 0 := by
      rw [hinv.deg_eq a han, remainingPreds_zero_iff]
      intro p hp
      by_contra hplin
      have hpmem : p ∈ (Finset.range e.parallel_part.length).filter
          (fun a => a ∉ st.linearized) :=
        Finset.mem_filter.2 ⟨Finset.mem_range.2 hp.1, hplin⟩
      have hle := hamin p hpmem
      exact absurd hle
        (not_le.2 (lt_trans (wf_call_lt_ret e hwf p hp.1) hp.2.2))
    have hmem : a ∈ st.minimal_invocations := (hinv.min_iff a).2 ⟨han, halin, hdeg⟩
    rw [hmin] at hmem
    exact List.not_mem_nil a hmem

/-- A completion of the current state exists iff some minimal candidate
matches its recorded return and the state after placing it has a completion. -/
theorem exists_completes_iff (sq : SeqSpec S Op Ret) (e : Execution Op Ret)
    (st : CheckerState S) (hinv : Inv sq e st) (hwf : WellFormed e)
    (hne : st.minimal_invocations ≠ []) :
    (∃ τ, Completes sq e st τ) ↔
      ∃ c ∈ st.minimal_invocations, (sq.exec st.seq_spec (opAt e c)).2 = retAt e c ∧
        ∃ τ', Completes sq e (stepState sq e c st) τ' := by
  constructor
  · rintro ⟨τ, hperm, hresp, s, hrep, hpost⟩
    cases τ with
    | nil =>
      exfalso
      obtain ⟨c, hc⟩ := List.exists_mem_of_ne_nil _ hne
      obtain ⟨hcn, hclin, -⟩ := (hinv.min_iff c).1 hc
      rw [List.append_nil] at hperm
      exact hclin (hperm.mem_iff.2 (List.mem_range.2 hcn))
    | cons c τ' =>
      have hnodup_all : (st.linearized ++ c :: τ').Nodup :=
        hperm.symm.nodup (List.nodup_range _)
      have hcn : c < e.parallel_part.length := by
        rw [← List.mem_range]
        exact hperm.mem_iff.1 (List.mem_append.2 (Or.inr (List.mem_cons_self c τ')))
      have hclin : c ∉ st.linearized := by
        intro hmem
        rcases List.nodup_append.1 hnodup_all with ⟨-, -, hdisj⟩
        exact hdisj hmem (List.mem_cons_self c τ')
      have hcdeg : st.in_degree c = 0 := by
        rw [hinv.deg_eq c hcn, remainingPreds_zero_iff]
        intro p hp
        by_contra hplin
        have hpmem : p ∈ st.linearized ++ c :: τ' :=
          hperm.mem_iff.2 (List.mem_range.2 hp.1)
        rcases List.mem_append.1 hpmem with h | h
        · exact hplin h
        · rcases List.mem_cons.1 h with hpc | hpτ
          · rw [hpc] at hp
            exact hb_irrefl e hwf c hp
          · have hsub : (c :: τ').Pairwise (fun a b => ¬ HB e b a) :=
              hresp.sublist (List.sublist_append_right _ _)
            exact (List.pairwise_cons.1 hsub).1 p hpτ hp
      have hcmem : c ∈ st.minimal_invocations := (hinv.min_iff c).2 ⟨hcn, hclin, hcdeg⟩
      -- unfold the first replay step
      rw [List.map_cons] at hrep
      have hrep' := hrep
      rw [show replay sq st.seq_spec (invAt e c :: τ'.map (invAt e)) =
          (if (sq.exec st.seq_spec (opAt e c)).2 = retAt e c then
            replay sq (sq.exec st.seq_spec (opAt e c)).1 (τ'.map (invAt e))
          else none) from rfl] at hrep'
      by_cases hm : (sq.exec st.seq_spec (opAt e c)).2 = retAt e c
      · rw [if_pos hm] at hrep'
        refine ⟨c, hcmem, hm, τ', ?_, ?_, s, ?_, hpost⟩
        · rw [stepState_linearized, List.append_assoc, List.singleton_append]
          exact hperm
        · rw [stepState_linearized, List.append_assoc, List.singleton_append]
          exact hresp
        · rw [stepState_seq]
          exact hrep'
      · rw [if_neg hm] at hrep'
        exact absurd hrep'.symm (Option.some_ne_none s)
  · rintro ⟨c, hcmem, hm, τ', hperm, hresp, s, hrep, hpost⟩
    rw [stepState_linearized, List.append_assoc, List.singleton_append] at hperm hresp
    refine ⟨c :: τ', hperm, hresp, s, ?_, hpost⟩
    rw [List.map_cons]
    rw [show replay sq st.seq_spec (invAt e c :: τ'.map (invAt e)) =
        (if (sq.exec st.seq_spec (opAt e c)).2 = retAt e c then
          replay sq (sq.exec st.seq_spec (opAt e c)).1 (τ'.map (invAt e))
        else none) from rfl]
    rw [if_pos hm]
    rw [stepState_seq] at hrep
    exact hrep

end Lincheck

namespace Lincheck

/-! The main characterization: on invariant states with enough fuel, the
parallel search succeeds iff a completion exists. -/

variable {S Op Ret : Type} [Inhabited Op] [Inhabited Ret] [DecidableEq Ret]

theorem checkParallelPartO_iff (sq : SeqSpec S Op Ret) (e : Execution Op Ret)
    (ord : List Nat → List Nat) (hord : ∀ l, (ord l).Perm l) (hwf : WellFormed e) :
    ∀ (fuel : Nat) (st : CheckerState S), Inv sq e st →
      e.parallel_part.length - st.linearized.length < fuel →
      (checkParallelPartO ord sq e fuel st = true ↔ ∃ τ, Completes sq e st τ) := by
  intro fuel
  induction fuel with
  | zero =>
    intro st _ hf
    exact absurd hf (Nat.not_lt_zero _)
  | succ fuel ih =>
    intro st hinv hf
    rw [checkParallelPartO_succ]
    by_cases hempty : st.minimal_invocations.isEmpty
    · rw [if_pos hempty]
      have hminnil : st.minimal_invocations = [] := List.isEmpty_iff.1 hempty
      have hlin := linearized_complete_of_minimal_empty sq e st hinv hwf hminnil
      unfold checkPostPart
      constructor
      · intro hpost
        exact ⟨[], by rw [List.append_nil]; exact hlin,
          by rw [List.append_nil]; exact hinv.lin_resp,
          st.seq_spec, rfl, hpost⟩
      · rintro ⟨τ, hperm, -, s, hrep, hpost⟩
        have hτnil : τ = [] := by
          have hlen := hperm.length_eq
          rw [List.length_append, List.length_range] at hlen
          have hlen2 := hlin.length_eq
          rw [List.length_range] at hlen2
          have hz : τ.length = 0 := by omega
          exact List.length_eq_zero.1 hz
        subst hτnil
        simp only [List.map_nil] at hrep
        have hseq : s = st.seq_spec := by
          have h : (some st.seq_spec : Option S) = some s := hrep
          exact (Option.some_inj.1 h).symm
        rw [← hseq]
        exact hpost
    · rw [if_neg hempty]
      have hne : st.minimal_invocations ≠ [] := fun h => hempty (by rw [h]; rfl)
      have hlinlt : st.linearized.length < e.parallel_part.length := by
        obtain ⟨c, hc⟩ := List.exists_mem_of_ne_nil _ hne
        obtain ⟨hcn, hclin, -⟩ := (hinv.min_iff c).1 hc
        have hnd : (st.linearized ++ [c]).Nodup :=
          hinv.lin_nodup.append (List.nodup_singleton c)
            (fun x hx hx' => absurd (List.mem_singleton.1 hx' ▸ hx) hclin)
        have hsubset : (st.linearized ++ [c]) ⊆ List.range e.parallel_part.length := by
          intro y hy
          rcases List.mem_append.1 hy with hy | hy
          · exact List.mem_range.2 (hinv.lin_mem y hy)
          · rw [List.mem_singleton.1 hy]
            exact List.mem_range.2 hcn
        have hle := (List.subperm_of_subset hnd hsubset).length_le
        rw [List.length_append, List.length_singleton, List.length_range] at hle
        omega
      have hr := tryCandidates_any sq e (checkParallelPartO ord sq e fuel)
        (fun a b ha hab => checkParallelPartO_congr sq e fuel ord ord hord hord a b ha hab)
        st hinv (ord st.minimal_invocations) st (StEq.refl st)
        (fun c hc => (hord _).mem_iff.1 hc)
      rw [hr, exists_completes_iff sq e st hinv hwf hne]
      constructor
      · rintro ⟨c, hc, hm, hrec⟩
        have hc1 := (hord _).mem_iff.1 hc
        have hflt : e.parallel_part.length - (stepState sq e c st).linearized.length < fuel := by
          rw [stepState_linearized, List.length_append, List.length_singleton]
          omega
        exact ⟨c, hc1, hm, (ih _ (inv_step sq e st hinv c hc1) hflt).1 hrec⟩
      · rintro ⟨c, hc1, hm, hτ⟩
        have hflt : e.parallel_part.length - (stepState sq e c st).linearized.length < fuel := by
          rw [stepState_linearized, List.length_append, List.length_singleton]
          omega
        exact ⟨c, (hord _).mem_iff.2 hc1, hm, (ih _ (inv_step sq e st hinv c hc1) hflt).2 hτ⟩

end Lincheck

namespace Lincheck

/-! Claims C1 and C3: soundness and completeness of `check`, and the search
state invariant. -/

variable {S Op Ret : Type} [Inhabited Op] [Inhabited Ret] [DecidableEq Ret]

/-- For an enumeration of all parallel invocations of a well-formed execution,
having no happens-before back edge is the same as extending happens-before. -/
theorem respectsHB_iff_extendsHB (e : Execution Op Ret) (hwf : WellFormed e) (σ : List Nat)
    (hperm : σ.Perm (List.range e.parallel_part.length)) :
    RespectsHB e σ ↔ ExtendsHB e σ := by
  have hnodup : σ.Nodup := hperm.symm.nodup (List.nodup_range _)
  constructor
  · intro hresp a b hab
    have ha : a ∈ σ := hperm.mem_iff.2 (List.mem_range.2 hab.1)
    have hb : b ∈ σ := hperm.mem_iff.2 (List.mem_range.2 hab.2.1)
    have hia : σ.indexOf a < σ.length := List.indexOf_lt_length.2 ha
    have hib : σ.indexOf b < σ.length := List.indexOf_lt_length.2 hb
    rcases lt_trichotomy (σ.indexOf a) (σ.indexOf b) with h | h | h
    · exact h
    · exfalso
      have hab' : a = b := (List.indexOf_inj ha hb).1 h
      rw [hab'] at hab
      exact hb_irrefl e hwf b hab
    · exfalso
      have hp := List.pairwise_iff_getElem.1 hresp _ _ hib hia h
      rw [List.getElem_indexOf hia, List.getElem_indexOf hib] at hp
      exact hp hab
  · intro hext
    unfold RespectsHB
    rw [List.pairwise_iff_getElem]
    intro i j hi hj hij hba
    have h1 := hext _ _ hba
    rw [List.indexOf_getElem hnodup i hi, List.indexOf_getElem hnodup j hj] at h1
    omega

/-- C1: for a well-formed execution and the (deterministic, purely functional)
sequential spec, `check` returns true iff there is a total order `σ` of the
parallel invocations extending happens-before such that replaying on a fresh
sequential spec all init ops, then the parallel ops in `σ`'s order, then all
post ops, reproduces every recorded return value. -/
theorem check_iff_exists_linearization (sq : SeqSpec S Op Ret) (e : Execution Op Ret)
    (hwf : WellFormed e) :
    (check sq e = true ↔ ∃ σ, IsLinearization sq e σ) := by
  unfold check checkO checkInitPartO
  cases hr : replay sq (initState sq e).seq_spec e.init_part with
  | none =>
    constructor
    · intro h
      exact absurd h Bool.false_ne_true
    · rintro ⟨σ, -, -, hrep⟩
      exfalso
      rw [replay_append, replay_append] at hrep
      have hr' : replay sq sq.default e.init_part = none := hr
      rw [hr'] at hrep
      simp at hrep
  | some s =>
    have hinv := initial_inv sq e s hr
    have hfuel : e.parallel_part.length -
        ({ initState sq e with seq_spec := s } : CheckerState S).linearized.length <
        e.parallel_part.length + 1 := by
      show e.parallel_part.length - ([] : List Nat).length < _
      simp
    rw [checkParallelPartO_iff sq e (fun l => l) (fun l => List.Perm.refl l) hwf _ _ hinv hfuel]
    constructor
    · rintro ⟨τ, hperm, hresp, s', hrep, hpost⟩
      have hperm' : τ.Perm (List.range e.parallel_part.length) := hperm
      refine ⟨τ, hperm', ?_, ?_⟩
      · rw [← respectsHB_iff_extendsHB e hwf τ hperm']
        exact hresp
      · rw [replay_append, replay_append]
        have hr' : replay sq sq.default e.init_part = some s := hr
        rw [hr']
        simp only [Option.some_bind]
        have hrep' : replay sq s (τ.map (invAt e)) = some s' := hrep
        rw [hrep']
        simp only [Option.some_bind]
        exact hpost
    · rintro ⟨σ, hperm, hext, hrep⟩
      rw [replay_append, replay_append] at hrep
      have hr' : replay sq sq.default e.init_part = some s := hr
      rw [hr'] at hrep
      simp only [Option.some_bind] at hrep
      cases h2 : replay sq s (σ.map (invAt e)) with
      | none =>
        rw [h2] at hrep
        simp at hrep
      | some s2 =>
        rw [h2] at hrep
        simp only [Option.some_bind] at hrep
        exact ⟨σ, hperm, (respectsHB_iff_extendsHB e hwf σ hperm).2 hext, s2, h2, hrep⟩

/-- Witness for C1 at the overlapping-pops execution. -/
theorem check_iff_exists_linearization_witness :
    WellFormed execOverlap ∧
      (check stackSpec execOverlap = true ↔
        ∃ σ, IsLinearization stackSpec execOverlap σ) :=
  ⟨by decide, check_iff_exists_linearization stackSpec execOverlap (by decide)⟩

/-- C3: the state invariant of the search.  (1) It holds at the initial entry
to `check_parallel_part` (after a successful init replay); (2) it is preserved
when a minimal candidate is placed by `call` and executed, i.e. at every
recursive entry; (3) a failed branch's `undo` followed by `rebuild_seq_spec`
restores the entry state exactly, up to the order of the minimal hash set.
`Inv` states that `in_degree i` counts the happens-before predecessors of `i`
not yet in `linearized`, that `minimal_invocations` is exactly the set of
unlinearized invocations with in-degree zero, and that `seq_spec` is a fresh
spec run through the init ops and the linearized ops. -/
theorem search_state_invariant (sq : SeqSpec S Op Ret) (e : Execution Op Ret) :
    (∀ s, replay sq sq.default e.init_part = some s →
      Inv sq e { initState sq e with seq_spec := s }) ∧
    (∀ (st : CheckerState S) (i : Nat), Inv sq e st → i ∈ st.minimal_invocations →
      Inv sq e (stepState sq e i st)) ∧
    (∀ (st : CheckerState S) (i : Nat), Inv sq e st → i ∈ st.minimal_invocations →
      StEq (rebuildSeqSpec sq e (undo i (stepState sq e i st))) st) :=
  ⟨fun s hs => initial_inv sq e s hs,
   fun st i hinv hmem => inv_step sq e st hinv i hmem,
   fun st i hinv hmem => inv_restore sq e st hinv i hmem⟩

/-- Witness for C3 at the overlapping-pops execution: the invariant holds at
the initial entry and after placing candidate 0. -/
theorem search_state_invariant_witness :
    Inv stackSpec execOverlap
      { initState stackSpec execOverlap with seq_spec := [2, 1] } ∧
    Inv stackSpec execOverlap
      (stepState stackSpec execOverlap 0
        { initState stackSpec execOverlap with seq_spec := [2, 1] }) := by
  have h := search_state_invariant stackSpec execOverlap
  have h1 := h.1 [2, 1] (by rfl)
  exact ⟨h1, h.2.1 _ 0 h1 (by decide)⟩

end Lincheck

namespace Lincheck

/-! Claim C7: timestamp properties of the per-thread recorder under the
interleaving-trace model of the shared timer. -/

variable {S Op Ret : Type} [Inhabited Op] [Inhabited Ret] [DecidableEq Ret]

theorem threadPositions_sorted (tr : List Nat) (t : Nat) :
    (threadPositions tr t).Pairwise (· < ·) :=
  (List.pairwise_lt_range _).filter _

theorem mem_threadPositions (tr : List Nat) (t k : Nat) :
    k ∈ threadPositions tr t ↔ k < tr.length ∧ tr.get? k = some t := by
  unfold threadPositions
  rw [List.mem_filter, List.mem_range]
  simp

theorem sorted_getD_lt (l : List Nat) (hl : l.Pairwise (· < ·)) (i j : Nat)
    (hij : i < j) (hj : j < l.length) : l.getD i 0 < l.getD j 0 := by
  have hi : i < l.length := lt_trans hij hj
  rw [List.getD_eq_getElem _ _ hi, List.getD_eq_getElem _ _ hj]
  exact List.pairwise_iff_getElem.1 hl i j hi hj hij

theorem recordedInvocations_getD (tr : List Nat) (t : Nat) (ops : List (Op × Ret)) (m : Nat)
    (hm : m < ops.length) :
    (recordedInvocations tr t ops).getD m default =
      { thread_id := t
        call_timestamp := (threadPositions tr t).getD (2 * m) 0
        return_timestamp := (threadPositions tr t).getD (2 * m + 1) 0
        op := (ops.getD m default).1
        ret := (ops.getD m default).2 } := by
  unfold recordedInvocations
  rw [List.getD_eq_getElem _ _ (by simpa using hm), List.getElem_map]
  simp

/-- Pairing up the elements of an even-length list by indices reproduces the
list. -/
theorem pairup_getD (L : Nat) : ∀ p : List Nat, p.length = 2 * L →
    (List.range L).flatMap (fun m => [p.getD (2 * m) 0, p.getD (2 * m + 1) 0]) = p := by
  induction L with
  | zero =>
    intro p hp
    rw [Nat.mul_zero] at hp
    rw [List.length_eq_zero.1 hp]
    rfl
  | succ L ih =>
    intro p hp
    match p with
    | [] => simp at hp
    | [a] =>
      rw [List.length_singleton] at hp
      omega
    | a :: b :: p' =>
      have hp' : p'.length = 2 * L := by
        simp only [List.length_cons] at hp
        omega
      rw [List.range_succ_eq_map, List.flatMap_cons, List.flatMap_map]
      have hfun : (List.range L).flatMap
            (fun x => [(a :: b :: p').getD (2 * (x + 1)) 0,
              (a :: b :: p').getD (2 * (x + 1) + 1) 0]) =
          (List.range L).flatMap (fun m => [p'.getD (2 * m) 0, p'.getD (2 * m + 1) 0]) := by
        have hf : (fun x => [(a :: b :: p').getD (2 * (x + 1)) 0,
              (a :: b :: p').getD (2 * (x + 1) + 1) 0]) =
            (fun m => [p'.getD (2 * m) 0, p'.getD (2 * m + 1) 0]) := by
          funext m
          have h1 : 2 * (m + 1) = 2 * m + 1 + 1 := by omega
          rw [h1, List.getD_cons_succ, List.getD_cons_succ, List.getD_cons_succ,
            List.getD_cons_succ]
        rw [hf]
      rw [hfun, ih p' hp']
      rfl

theorem recordedTimestamps_eq (tr : List Nat) (t : Nat) (L : Nat)
    (hc : (threadPositions tr t).length = 2 * L) :
    recordedTimestamps tr t L = threadPositions tr t := by
  unfold recordedTimestamps
  exact pairup_getD L (threadPositions tr t) hc

/-- C7: under any interleaving `tr` of the shared timer's fetch_add events
(each `record` performs one at call and one at return, in program order), a
thread that completes its ops receives timestamps such that every invocation
has call < return, consecutive invocations of the same thread have
previous.return < next.call, and no timestamp of one thread equals any
timestamp of another thread (all timestamps are trace positions, hence
globally pairwise distinct). -/
theorem recorder_timestamps_wellformed (tr : List Nat) (t t' : Nat)
    (ops ops' : List (Op × Ret))
    (hc : (threadPositions tr t).length = 2 * ops.length)
    (hc' : (threadPositions tr t').length = 2 * ops'.length)
    (htt : t ≠ t') :
    (∀ inv ∈ recordedInvocations tr t ops,
      inv.call_timestamp < inv.return_timestamp) ∧
    (∀ m, m + 1 < ops.length →
      ((recordedInvocations tr t ops).getD m
          default).return_timestamp <
        ((recordedInvocations tr t ops).getD (m + 1)
          default).call_timestamp) ∧
    (recordedTimestamps tr t ops.length ++ recordedTimestamps tr t' ops'.length).Nodup := by
  have hsorted := threadPositions_sorted tr t
  refine ⟨?_, ?_, ?_⟩
  · intro inv hinv
    unfold recordedInvocations at hinv
    rw [List.mem_map] at hinv
    obtain ⟨m, hm, rfl⟩ := hinv
    rw [List.mem_range] at hm
    show (threadPositions tr t).getD (2 * m) 0 < (threadPositions tr t).getD (2 * m + 1) 0
    exact sorted_getD_lt _ hsorted _ _ (by omega) (by omega)
  · intro m hm
    rw [recordedInvocations_getD tr t ops m (by omega),
      recordedInvocations_getD tr t ops (m + 1) hm]
    show (threadPositions tr t).getD (2 * m + 1) 0 <
      (threadPositions tr t).getD (2 * (m + 1)) 0
    exact sorted_getD_lt _ hsorted _ _ (by omega) (by omega)
  · rw [recordedTimestamps_eq tr t _ hc, recordedTimestamps_eq tr t' _ hc']
    apply List.Nodup.append
    · exact (threadPositions_sorted tr t).imp Nat.ne_of_lt
    · exact (threadPositions_sorted tr t').imp Nat.ne_of_lt
    · intro x hx hx'
      rw [mem_threadPositions] at hx hx'
      exact htt (Option.some_inj.1 (hx.2.symm.trans hx'.2))

/-- Witness for C7: the trace call₀, call₁, ret₁, ret₀ of two threads with one
operation each (the interleaving of the recorder unit test). -/
theorem recorder_timestamps_wellformed_witness :
    (∀ inv ∈ recordedInvocations [0, 1, 1, 0] 0
        [(StackOp.pop, StackRet.popR none)],
      inv.call_timestamp < inv.return_timestamp) ∧
    (∀ m, m + 1 < [(StackOp.pop, StackRet.popR none)].length →
      ((recordedInvocations [0, 1, 1, 0] 0
          [(StackOp.pop, StackRet.popR none)]).getD m default).return_timestamp <
        ((recordedInvocations [0, 1, 1, 0] 0
          [(StackOp.pop, StackRet.popR none)]).getD (m + 1) default).call_timestamp) ∧
    (recordedTimestamps [0, 1, 1, 0] 0 [(StackOp.pop, StackRet.popR none)].length ++
      recordedTimestamps [0, 1, 1, 0] 1 [(StackOp.push 1, StackRet.pushR)].length).Nodup :=
  recorder_timestamps_wellformed [0, 1, 1, 0] 0 1
    [(StackOp.pop, StackRet.popR none)] [(StackOp.push 1, StackRet.pushR)]
    (by decide) (by decide) (by decide)

end Lincheck

namespace Lincheck

/-! Sanity checks: the embedding reproduces the verdicts of the unit tests in
src/checker.rs. -/

example : check stackSpec execSeqOnly = true := by decide

example : check stackSpec execOverlap = true := by decide

example : check stackSpec execHbViolation = false := by decide

example : check stackSpec execBadInit = false := by decide

end Lincheck
